import Mathlib

/-!
Shallow embedding of the MetaSimPy core (xfrrn/MetaSimPy) used to check the
claims of the specification against the source.

Conventions:
* Python `dict`s are modelled as ordered association lists (`List (String × β)`)
  with the usual first-key-wins lookup; loaders that iterate dict items iterate
  the list in order, matching Python's insertion-ordered dicts.
* Python machine integers are modelled as `Int` (or `Nat` where the source
  validates positivity); `float("inf")` entries of the Dijkstra distance table
  are modelled as `Option Nat` with `none` standing for infinity.
* `datetime.datetime` is modelled at minute granularity (the timeline only adds
  whole minutes and only inspects the minute/hour/day/month components).
* `random.randint(lo, hi)` draws are modelled by an explicit draw stream
  `σ : Nat → Int` consumed in call order; theorems quantify over streams whose
  draws lie within the requested bounds.
* Calls that raise in Python (missing attribute / missing method) are modelled
  with an explicit `PyErr` error value.
-/

namespace MetaSimPy

/-! ### Association lists standing for Python dicts -/

/-- Lookup in an association list, first binding wins (Python `dict.get`). -/
def alookup {β : Type} (l : List (String × β)) (k : String) : Option β :=
  match l with
  | [] => none
  | (k2, v) :: rest => if k2 = k then some v else alookup rest k

/-- `dict[k] = v` dict assignment: overwrite the existing binding in place,
otherwise append the new binding at the end (Python insertion order). -/
def aset {β : Type} (l : List (String × β)) (k : String) (v : β) :
    List (String × β) :=
  match l with
  | [] => [(k, v)]
  | (k2, v2) :: rest => if k2 = k then (k2, v) :: rest else (k2, v2) :: aset rest k v

/-- Key membership in an association list (Python `k in dict`). -/
def amem {β : Type} (l : List (String × β)) (k : String) : Bool :=
  match l with
  | [] => false
  | (k2, _) :: rest => k2 = k || amem rest k

/-- `dict.update(other)`: assign every binding of `other` in iteration order. -/
def aupdate {β : Type} (l other : List (String × β)) : List (String × β) :=
  other.foldl (fun acc p => aset acc p.1 p.2) l

/-! ### Character/string helpers (Python string operatons used by the code) -/

/-- ASCII lower-casing of one character (the markers checked by the memory
importance heuristic are ASCII or Chinese, where this agrees with `str.lower`). -/
def lowerChar (c : Char) : Char :=
  if 'A' ≤ c ∧ c ≤ 'Z' then Char.ofNat (c.toNat + 32) else c

/-- `s.lower()` on the underlying character list. -/
def lowerStr (s : String) : List Char := s.data.map lowerChar

/-- Does `l` start with `pat`? -/
def startsWithChars : List Char → List Char → Bool
  | _, [] => true
  | [], _ :: _ => false
  | a :: as, b :: bs => a = b && startsWithChars as bs

/-- Python `pat in s` substring containment on character lists. -/
def containsChars : List Char → List Char → Bool
  | l, pat =>
    match l with
    | [] => startsWithChars [] pat
    | _ :: rest => startsWithChars l pat || containsChars rest pat

/-- Python `pat in s` for strings. -/
def strContains (s pat : String) : Bool := containsChars s.data pat.data

/-- Code-point lexicographic strict comparison of character lists; this is the
order Python uses to compare the `str` components of heap tuples. -/
def charListLt : List Char → List Char → Bool
  | [], [] => false
  | [], _ :: _ => true
  | _ :: _, [] => false
  | a :: as, b :: bs => if a < b then true else if b < a then false else charListLt as bs

/-- Python `<` on strings. -/
def strLt (a b : String) : Bool := charListLt a.data b.data

/-! ### locations.py -/

/-- `LocationType` enum (`locations.py`). -/
inductive LocationType
  | residential | commercial | outdoor | transit
  | internalPublic | externalPublic | service | workplace
deriving DecidableEq, Repr

/-- The `.value` of each `LocationType` member: the enum values in the source
are Chinese strings, *not* the member names. -/
def LocationType.value : LocationType → String
  | .residential => "住宅"
  | .commercial => "商业"
  | .outdoor => "户外"
  | .transit => "交通中转"
  | .internalPublic => "公寓内部公共区域"
  | .externalPublic => "公寓外部公共区域"
  | .service => "服务设施"
  | .workplace => "工作场所"

/-- `Location` model (`locations.py`), restricted to the fields the claims
touch. `availableJobs` is the `job type → max workers` table. -/
structure Location where
  name : String
  ltype : LocationType
  objects : List String
  services : Option (List (String × Int)) := none
  availableJobs : Option (List (String × Int)) := none
deriving DecidableEq, Repr

/-! ### map.py : WorldMap -/

/-- `WorldMap` state: `_locations` and `_connections` (`map.py`). -/
structure WorldMap where
  locations : List (String × Location)
  connections : List (String × List (String × Nat))
deriving DecidableEq, Repr

/-- `WorldMap.get_location`. -/
def WorldMap.getLocation (wm : WorldMap) (name : String) : Option Location :=
  alookup wm.locations name

/-- `WorldMap.is_valid_location`. -/
def WorldMap.isValidLocation (wm : WorldMap) (name : String) : Bool :=
  amem wm.locations name

/-- `WorldMap.get_travel_time`: `None` for invalid endpoints, `0` when the two
names coincide, else the direct edge weight if present. -/
def WorldMap.getTravelTime (wm : WorldMap) (startName endName : String) : Option Nat :=
  if ¬ (wm.isValidLocation startName ∧ wm.isValidLocation endName) then none
  else if startName = endName then some 0
  else match alookup wm.connections startName with
    | none => none
    | some dests => alookup dests endName

/-- Connection loading validation (`load_map_from_files`, step 2): keep a raw
destination `(end, t)` iff the endpoint is a loaded location and `t` is a
positive integer; keep a start node iff it is a loaded location and at least
one destination survived. -/
def loadConnections (wm : WorldMap) (raw : List (String × List (String × Int))) :
    List (String × List (String × Nat)) :=
  raw.foldl
    (fun acc p =>
      if wm.isValidLocation p.1 then
        let valid := (p.2.filter
            (fun q => wm.isValidLocation q.1 && decide (0 < q.2))).map
          (fun q => (q.1, q.2.toNat))
        if valid = [] then acc else acc ++ [(p.1, valid)]
      else acc)
    []

/-- One inner step of `_ensure_bidirectional_connections`: processing the
directed edge `start → (end, t)` against the pending additions `toAdd` and the
live table `conns`. -/
def ensureStep (start endN : String) (t : Nat)
    (st : List (String × List (String × Nat)) × List (String × List (String × Nat))) :
    List (String × List (String × Nat)) × List (String × List (String × Nat)) :=
  let (toAdd, conns) := st
  let reverseExists := ((alookup conns endN).map (fun d => amem d start)).getD false
  let planned := ((alookup toAdd endN).map (fun d => amem d start)).getD false
  if ¬ reverseExists ∧ ¬ planned then
    let toAdd := if amem toAdd endN then toAdd else aset toAdd endN []
    let conns := if amem conns endN then conns else aset conns endN []
    let toAdd := aset toAdd endN (aset ((alookup toAdd endN).getD []) start t)
    (toAdd, conns)
  else (toAdd, conns)

/-- `_ensure_bidirectional_connections` (`map.py`): scan the current table,
plan a reverse edge with the same weight for every edge whose reverse is
neither present nor already planned, then merge the planned additions in. -/
def ensureBidirectional (conns0 : List (String × List (String × Nat))) :
    List (String × List (String × Nat)) :=
  let scanned := conns0.foldl
    (fun st p => p.2.foldl (fun st2 q => ensureStep p.1 q.1 q.2 st2) st)
    (([] : List (String × List (String × Nat))), conns0)
  scanned.1.foldl
    (fun acc p => aset acc p.1 (aupdate ((alookup acc p.1).getD []) p.2))
    scanned.2

/-- Full connection-loading pipeline of `load_map_from_files`: validate the raw
table, then enforce bidirectionality. -/
def WorldMap.loadAndEnsure (wm : WorldMap) (raw : List (String × List (String × Int))) :
    WorldMap :=
  { wm with connections := ensureBidirectional (loadConnections wm raw) }

/-! ### world_state.py : WorldState (the occupancy ledger) -/

/-- `WorldState`: `occupied_jobs` maps an agent id to its `(location, job)`. -/
structure WorldState where
  occupiedJobs : List (String × String × String)
deriving DecidableEq, Repr

/-- Number of ledger entries for one `(location, job type)` slot. -/
def WorldState.countWorkers (ws : WorldState) (locationName jobType : String) : Nat :=
  (ws.occupiedJobs.filter
    (fun p => p.2.1 = locationName && p.2.2 = jobType)).length

/-- `WorldState.is_job_available`: false when the location is missing, declares
no jobs (`None` or an empty table — both falsy in Python), or declares this job
type with capacity `0`; otherwise compare the occupant count with capacity. -/
def WorldState.isJobAvailable (ws : WorldState) (locationName jobType : String)
    (wm : WorldMap) : Bool :=
  match wm.getLocation locationName with
  | none => false
  | some loc =>
    match loc.availableJobs with
    | none => false
    | some jobs =>
      if jobs = [] then false
      else
        let maxWorkers := (alookup jobs jobType).getD 0
        if maxWorkers = 0 then false
        else decide ((ws.countWorkers locationName jobType : Int) < maxWorkers)

/-- `WorldState.assign_job_to_agent`: refuse when the agent already holds a
job; otherwise record the assignment iff the slot is available. -/
def WorldState.assignJobToAgent (ws : WorldState) (agentId locationName jobType : String)
    (wm : WorldMap) : Bool × WorldState :=
  if (ws.occupiedJobs.map (·.1)).contains agentId then (false, ws)
  else if ws.isJobAvailable locationName jobType wm then
    (true, ⟨ws.occupiedJobs ++ [(agentId, locationName, jobType)]⟩)
  else (false, ws)

/-- `WorldState.remove_agent_from_job`. -/
def WorldState.removeAgentFromJob (ws : WorldState) (agentId : String) : WorldState :=
  ⟨ws.occupiedJobs.filter (fun p => p.1 ≠ agentId)⟩

/-- One ledger operation, used to state the ledger invariant over arbitrary
operation sequences. -/
inductive LedgerOp
  | assign (agentId locationName jobType : String)
  | release (agentId : String)

/-- Run a sequence of ledger operations from a given state. -/
def WorldState.run (ws : WorldState) (wm : WorldMap) : List LedgerOp → WorldState
  | [] => ws
  | .assign a l j :: rest => ((ws.assignJobToAgent a l j wm).2).run wm rest
  | .release a :: rest => (ws.removeAgentFromJob a).run wm rest

/-- The capacity a map declares for a `(location, job type)` slot (0 when the
location or the job type is undeclared). -/
def declaredCapacity (wm : WorldMap) (locationName jobType : String) : Int :=
  match wm.getLocation locationName with
  | none => 0
  | some loc => (alookup (loc.availableJobs.getD []) jobType).getD 0

/-! ### state_models.py -/

/-- `MoodState` enum. -/
inductive MoodState
  | happy | neutral | sad | angry | content
deriving DecidableEq, Repr

/-- The `.value` strings of `MoodState` (Chinese in the source). -/
def MoodState.value : MoodState → String
  | .happy => "开心"
  | .neutral => "中性"
  | .sad => "悲伤"
  | .angry => "愤怒"
  | .content => "满足"

/-- `MoodState(s)` value lookup: succeeds only on the enum *values*. -/
def moodFromValue (s : String) : Option MoodState :=
  [MoodState.happy, .neutral, .sad, .angry, .content].foldr
    (fun m acc => if m.value = s then some m else acc) none

/-- `HealthStatus` enum. -/
inductive HealthStatus
  | healthy | unwell | sick
deriving DecidableEq, Repr

/-- The `.value` strings of `HealthStatus`. -/
def HealthStatus.value : HealthStatus → String
  | .healthy => "健康"
  | .unwell => "不适"
  | .sick => "生病"

/-- `HealthStatus(s)` value lookup. -/
def healthFromValue (s : String) : Option HealthStatus :=
  [HealthStatus.healthy, .unwell, .sick].foldr
    (fun m acc => if m.value = s then some m else acc) none

/-- `AgentInternalState` (`state_models.py`). The pydantic field bounds
(`ge`/`le`) are declared on the model but the model does not enable
`validate_assignment`, so mutations performed by the interaction code are
stored as-is; the integer fields are therefore modelled as unconstrained
`Int`. -/
structure AgentInternalState where
  mood : MoodState := .neutral
  energy : Int := 100
  hunger : Int := 0
  stressLevel : Int := 0
  healthStatus : HealthStatus := .healthy
  socialNeed : Int := 50
  hygiene : Int := 100
  laundryNeed : Int := 0
  money : Int := 100
deriving DecidableEq, Repr

/-- Values `getattr(state, name)` can produce for the attribute names used by
the interaction rule tables. -/
inductive AttrVal
  | intVal (n : Int)
  | moodVal (m : MoodState)
  | healthVal (h : HealthStatus)
deriving DecidableEq, Repr

/-- `getattr(agent._internal_state, name, None)` for the model's fields. -/
def AgentInternalState.getAttrVal (st : AgentInternalState) : String → Option AttrVal
  | "mood" => some (.moodVal st.mood)
  | "energy" => some (.intVal st.energy)
  | "hunger" => some (.intVal st.hunger)
  | "stress_level" => some (.intVal st.stressLevel)
  | "health_status" => some (.healthVal st.healthStatus)
  | "social_need" => some (.intVal st.socialNeed)
  | "hygiene" => some (.intVal st.hygiene)
  | "laundry_need" => some (.intVal st.laundryNeed)
  | "money" => some (.intVal st.money)
  | _ => none

/-- `setattr(agent._internal_state, name, v)` for an integer value; the
pydantic model performs no assignment validation, so the raw value is stored. -/
def AgentInternalState.setAttrInt (st : AgentInternalState) (name : String) (v : Int) :
    AgentInternalState :=
  if name = "energy" then { st with energy := v }
  else if name = "hunger" then { st with hunger := v }
  else if name = "stress_level" then { st with stressLevel := v }
  else if name = "social_need" then { st with socialNeed := v }
  else if name = "hygiene" then { st with hygiene := v }
  else if name = "laundry_need" then { st with laundryNeed := v }
  else if name = "money" then { st with money := v }
  else st

/-! ### agents/interactions.py : the action classes -/

/-- The action classes *defined* in `agents/interactions.py`. Note that no
`WorkAction` and no `BuyItemAction` class exists in that module, although
`agent.py` refers to `actions.WorkAction` and `actions.BuyItemAction`. -/
inductive ActionKind
  | wait | speak | moveTo | useObject | gardening | walk | listen
  | hangOut | eat | sleep | shower | buy | takeBus | leaveCommunity
deriving DecidableEq, Repr

/-- `ACTION_MAPPING` (`interactions.py`, lines 452-467): the name→class table
used to parse provider output. It contains no entry mapping to a work or a
buy-item action class, because those classes do not exist. -/
def ACTION_MAPPING : List (String × ActionKind) :=
  [("Wait", .wait), ("Speak", .speak), ("MoveTo", .moveTo), ("UseObject", .useObject),
   ("Gardening", .gardening), ("Walk", .walk), ("Listen", .listen), ("HangOut", .hangOut),
   ("Eat", .eat), ("Sleep", .sleep), ("Shower", .shower), ("Buy", .buy),
   ("TakeBus", .takeBus), ("LeaveCommunity", .leaveCommunity)]

/-- Does `agents/interactions.py` define a class of the given name? Computed
from the module's class list; in particular `moduleDefinesClass "WorkAction"`
is `false`. -/
def moduleDefinesClass (name : String) : Bool :=
  ["ActionBase", "WaitAction", "SpeakAction", "MoveToAction", "UseObjectAction",
   "GardeningAction", "WalkAction", "ListenAction", "HangOutAction", "EatAction",
   "SleepAction", "ShowerAction", "BuyAction", "TakeBusAction",
   "LeaveCommunityAction"].contains name

/-- Python-level failures that the shallow embedding makes explicit. -/
inductive PyErr
  | attributeError (detail : String)
  | typeError (detail : String)
deriving DecidableEq, Repr

/-- The recorded in-progress action of an agent (`_current_action`): the action
object together with its scheduled completion timestamp. Timestamps are epoch
minutes (datetime comparison is chronological). -/
structure CurrentAction where
  kind : ActionKind
  endTime : Int
deriving DecidableEq, Repr

/-- The slice of `Agent` state that `is_idle` touches. -/
structure AgentRec where
  agentId : String
  currentAction : Option CurrentAction
deriving DecidableEq, Repr

/-- `Agent.is_idle` (`agent.py`, lines 106-125). With no current action it
returns `True`. With a completed current action the source evaluates
`isinstance(action_obj, actions.WorkAction)`; `agents/interactions.py` defines
no `WorkAction` attribute, so this lookup raises `AttributeError` — modelled by
the `.error` branch guarded by `moduleDefinesClass "WorkAction"`. -/
def AgentRec.isIdle (a : AgentRec) (currentTime : Int) (ws : WorldState) :
    Except PyErr (Bool × AgentRec × WorldState) :=
  match a.currentAction with
  | none => .ok (true, a, ws)
  | some ca =>
    if ca.endTime ≤ currentTime then
      if moduleDefinesClass "WorkAction" then
        -- unreachable with the shipped module: the intended completion logic
        .ok (true, { a with currentAction := none }, ws)
      else .error (.attributeError "module metasimpy.core.agents.interactions has no attribute WorkAction")
    else .ok (false, a, ws)

/-! ### world_interactions.py : the interaction resolvers -/

/-- One entry of a `state_changes` table: a `(lo, hi)` range to sample, a
string for a direct enum set, or a plain integer delta. -/
inductive ChangeSpec
  | range (lo hi : Int)
  | setStr (s : String)
  | fixed (n : Int)
deriving DecidableEq, Repr

/-- An `INTERACTION_RULES` entry (`world_interactions.py`, lines 17-26). -/
structure InteractionRule where
  cost : Option Int := none
  durationMinutes : Option Nat := none
  requiredLocationType : Option String := none
  requiredLocationName : Option String := none
  stateChanges : List (String × ChangeSpec) := []
  hasStateChanges : Bool := false
  precondition : Option (AgentInternalState → Bool) := none
  jobType : Option String := none
  hourlyWage : Option Int := none
  maxWorkers : Option Nat := none
  stateChangesPerHour : List (String × ChangeSpec) := []
  interactionVerb : Option String := none
  itemsForSale : List (String × Int) := []
  hasItemsForSale : Bool := false
  producesItem : Option String := none
  serviceName : Option String := none

/-- The hard-coded `INTERACTION_RULES` table. The `required_location_type`
values are the English member names of `LocationType`, while
`Location.type.value` produces the Chinese enum values. -/
def INTERACTION_RULES : List (String × InteractionRule) :=
  [("WashingMachine",
    { cost := some 5, durationMinutes := some 30,
      requiredLocationType := some "INTERNAL_PUBLIC",
      stateChanges := [("laundry_need", .range (-70) (-30)), ("energy", .range (-5) (-5))],
      hasStateChanges := true,
      precondition := some (fun st => decide (20 < st.laundryNeed)) }),
   ("CoffeeMachine",
    { cost := some 5, durationMinutes := some 3,
      requiredLocationType := some "COMMERCIAL",
      producesItem := some "coffee",
      stateChanges := [("energy", .range 10 25), ("mood", .setStr "CONTENT")],
      hasStateChanges := true }),
   ("CafeCounter",
    { jobType := some "barista", hourlyWage := some 15, maxWorkers := some 1,
      requiredLocationType := some "COMMERCIAL",
      stateChangesPerHour := [("energy", .range (-8) (-5)), ("stress_level", .range 1 3)] }),
   ("ClinicDesk",
    { cost := some 100, durationMinutes := some 20,
      requiredLocationType := some "SERVICE",
      serviceName := some "medical_consultation",
      stateChanges := [("health_status", .setStr "HEALTHY"), ("stress_level", .range (-20) (-5))],
      hasStateChanges := true }),
   ("CheckoutCounter",
    { jobType := some "cashier", hourlyWage := some 12, maxWorkers := some 1,
      requiredLocationType := some "COMMERCIAL",
      stateChangesPerHour := [("energy", .range (-10) (-6)), ("stress_level", .range 2 5)] }),
   ("Shelf_Food",
    { interactionVerb := some "buy_from", durationMinutes := some 5,
      requiredLocationType := some "COMMERCIAL",
      itemsForSale := [("apple", 2), ("bread", 3)], hasItemsForSale := true }),
   ("Bench",
    { durationMinutes := some 15, requiredLocationType := some "OUTDOOR",
      stateChanges := [("energy", .range 1 5), ("stress_level", .range (-10) (-1))],
      hasStateChanges := true })]

/-- Apply one `state_changes` entry (`interact_with_object`, lines 87-113).
`σ` is the `random.randint` draw stream and `i` the index of the next draw;
returns the updated state, the next draw index, or an error for the
(table-unreachable) enum-plus-int type confusion. -/
def applyStateChange (st : AgentInternalState) (attr : String) (spec : ChangeSpec)
    (σ : Nat → Int) (i : Nat) : AgentInternalState × Except PyErr Nat :=
  match st.getAttrVal attr with
  | none => (st, .ok i)
  | some cur =>
    match spec with
    | .range _ _ =>
      match cur with
      | .intVal n => (st.setAttrInt attr (n + σ i), .ok (i + 1))
      | _ => (st, .error (.typeError "unsupported operand for enum + int"))
    | .setStr s =>
      if attr = "mood" then
        match moodFromValue s with
        | some m => ({ st with mood := m }, .ok i)
        | none => (st, .ok i)  -- ValueError caught: warning, no change
      else if attr = "health_status" then
        match healthFromValue s with
        | some h => ({ st with healthStatus := h }, .ok i)
        | none => (st, .ok i)
      else (st, .ok i)  -- unknown direct-set attribute: warning, no change
    | .fixed n =>
      match cur with
      | .intVal m => (st.setAttrInt attr (m + n), .ok i)
      | _ => (st, .error (.typeError "unsupported operand for enum + int"))

/-- Fold `applyStateChange` over a `state_changes` table; an uncaught error
aborts the loop leaving the partial mutations in place. -/
def applyStateChanges (st : AgentInternalState) (changes : List (String × ChangeSpec))
    (σ : Nat → Int) (i : Nat) : AgentInternalState × Except PyErr Nat :=
  match changes with
  | [] => (st, .ok i)
  | (attr, spec) :: rest =>
    match applyStateChange st attr spec σ i with
    | (st2, .error e) => (st2, .error e)
    | (st2, .ok i2) => applyStateChanges st2 rest σ i2

/-- `interact_with_object` (`world_interactions.py`, lines 31-134). Returns the
agent state after the call together with either the `(success, duration)`
result or a raised error. `currentLoc` is `agent._current_location`. -/
def interactWithObject (st : AgentInternalState) (currentLoc objectName : String)
    (wm : WorldMap) (σ : Nat → Int) :
    AgentInternalState × Except PyErr (Bool × Nat) :=
  match wm.getLocation currentLoc with
  | none => (st, .ok (false, 1))
  | some location =>
    if ¬ location.objects.contains objectName then (st, .ok (false, 1))
    else match alookup INTERACTION_RULES objectName with
    | none => (st, .ok (false, 1))
    | some rules =>
      -- location-type gate: fails when a required type is declared, the
      -- location's `.value` differs from it, and the location name differs
      -- from the (never declared, hence None) required_location_name
      let nameEscape : Bool := match rules.requiredLocationName with
        | none => false       -- `location.name != None` is always True
        | some n => location.name = n
      let typeGateFails : Bool := match rules.requiredLocationType with
        | some rlt => (location.ltype.value ≠ rlt : Bool) && !nameEscape
        | none => false
      let precondFails : Bool := match rules.precondition with
        | some p => !(p st)
        | none => false
      if typeGateFails then (st, .ok (false, 1))
      else if precondFails then (st, .ok (false, 1))
      else
        match rules.cost with
        | some c =>
          if st.money < c then (st, .ok (false, 1))
          else
            let st1 := { st with money := st.money - c }
            let duration := rules.durationMinutes.getD 1
            match applyStateChanges st1 rules.stateChanges σ 0 with
            | (st2, .error e) => (st2, .error e)
            | (st2, .ok _) => (st2, .ok (true, duration))
        | none =>
          let duration := rules.durationMinutes.getD 1
          match applyStateChanges st rules.stateChanges σ 0 with
          | (st2, .error e) => (st2, .error e)
          | (st2, .ok _) => (st2, .ok (true, duration))

/-- The set of methods `WorldMap` actually defines (`map.py`); notably there is
no `assign_job_to_agent` — that method lives on `WorldState` with a different
signature. -/
def worldMapHasMethod (name : String) : Bool :=
  ["load_map_from_files", "get_location", "is_valid_location",
   "get_all_location_names", "get_all_locations", "get_neighbors",
   "get_travel_time", "get_objects_at_location", "get_location_type",
   "get_location_services", "get_location_jobs", "get_locations_by_type",
   "get_locations_with_tag", "get_random_location", "find_path",
   "get_agents_at_location", "get_objects_with_verb"].contains name

/-- `perform_work` (`world_interactions.py`, lines 137-203). After locating a
work object and its wage, the source calls
`world_map.assign_job_to_agent(...)`; `WorldMap` defines no such method, so
the call raises `AttributeError` and the payment/state-effect code below it is
unreachable. -/
def performWork (st : AgentInternalState) (currentLoc jobType : String)
    (durationMinutes : Nat) (wm : WorldMap) :
    AgentInternalState × Except PyErr (Bool × Nat) :=
  match wm.getLocation currentLoc with
  | none => (st, .ok (false, 1))
  | some location =>
    let jobRule := location.objects.foldl
      (fun acc objName =>
        match acc with
        | some r => some r
        | none =>
          match alookup INTERACTION_RULES objName with
          | some rule => if rule.jobType = some jobType then some rule else none
          | none => none)
      none
    match jobRule with
    | none => (st, .ok (false, 1))
    | some rule =>
      match rule.hourlyWage with
      | none => (st, .ok (false, 1))
      | some _ =>
        if worldMapHasMethod "assign_job_to_agent" then
          -- unreachable: kept only to witness where the intended logic sits
          (st, .ok (true, durationMinutes))
        else
          (st, .error (.attributeError "WorldMap object has no attribute assign_job_to_agent"))

/-- `buy_item` (`world_interactions.py`, lines 206-258). -/
def buyItem (st : AgentInternalState) (currentLoc itemName : String) (quantity : Nat)
    (wm : WorldMap) (σ : Nat → Int) :
    AgentInternalState × Except PyErr (Bool × Nat) :=
  match wm.getLocation currentLoc with
  | none => (st, .ok (false, 1))
  | some location =>
    -- first object at the location that sells the item
    let seller := location.objects.foldl
      (fun acc objName =>
        match acc with
        | some r => some r
        | none =>
          match alookup INTERACTION_RULES objName with
          | some rules =>
            if rules.interactionVerb = some "buy_from" then
              match alookup rules.itemsForSale itemName with
              | some price => some (objName, price, rules)
              | none => none
            else none
          | none => none)
      none
    match seller with
    | none => (st, .ok (false, 1))
    | some (_, price, rules) =>
      let totalCost := price * (quantity : Int)
      let duration := rules.durationMinutes.getD 3
      if st.money < totalCost then (st, .ok (false, 1))
      else
        let st1 := { st with money := st.money - totalCost }
        if ["apple", "bread", "sandwich"].contains itemName then
          let hungerReduction := σ 0 * (quantity : Int)
          ({ st1 with hunger := max 0 (st1.hunger - hungerReduction) }, .ok (true, duration))
        else (st1, .ok (true, duration))

/-! ### engine/timeline.py -/

/-- `datetime.datetime` at minute granularity. The timeline adds whole minutes
and inspects only the minute/hour/day/month components, so sub-minute fields
are constant and omitted. -/
structure PyDateTime where
  year : Nat
  month : Nat
  day : Nat
  hour : Nat
  minute : Nat
deriving DecidableEq, Repr

/-- Gregorian leap-year rule. -/
def isLeap (y : Nat) : Bool := y % 4 = 0 && (y % 100 ≠ 0 || y % 400 = 0)

/-- Days in a month of a given year (months `1`-`12`). -/
def daysInMonth (y m : Nat) : Nat :=
  if m = 1 then 31 else if m = 2 then (if isLeap y then 29 else 28)
  else if m = 3 then 31 else if m = 4 then 30 else if m = 5 then 31
  else if m = 6 then 30 else if m = 7 then 31 else if m = 8 then 31
  else if m = 9 then 30 else if m = 10 then 31 else if m = 11 then 30
  else if m = 12 then 31 else 0

/-- A valid (proleptic Gregorian) minute-resolution timestamp. -/
def PyDateTime.Valid (t : PyDateTime) : Prop :=
  1 ≤ t.year ∧ 1 ≤ t.month ∧ t.month ≤ 12 ∧ 1 ≤ t.day ∧
    t.day ≤ daysInMonth t.year t.month ∧ t.hour ≤ 23 ∧ t.minute ≤ 59

instance (t : PyDateTime) : Decidable t.Valid := by
  unfold PyDateTime.Valid; infer_instance

/-- Days in all months strictly before month `m` of year `y` (cumulative
table; months beyond 13 are not used). -/
def daysBeforeMonth (y m : Nat) : Nat :=
  let feb := if isLeap y then 29 else 28
  if m ≤ 1 then 0
  else if m = 2 then 31
  else if m = 3 then 31 + feb
  else if m = 4 then 62 + feb
  else if m = 5 then 92 + feb
  else if m = 6 then 123 + feb
  else if m = 7 then 153 + feb
  else if m = 8 then 184 + feb
  else if m = 9 then 215 + feb
  else if m = 10 then 245 + feb
  else if m = 11 then 276 + feb
  else if m = 12 then 306 + feb
  else 337 + feb

/-- Days in all years strictly before year `y` (year numbering from 1). -/
def daysBeforeYear (y : Nat) : Nat :=
  365 * (y - 1) + (y - 1) / 4 + (y - 1) / 400 - (y - 1) / 100

/-- Minutes since the epoch `0001-01-01 00:00`; the linear time scale used to
state that a tick advances time by exactly one minute. -/
def epochMinutes (t : PyDateTime) : Nat :=
  ((daysBeforeYear t.year + daysBeforeMonth t.year t.month + (t.day - 1)) * 24
      + t.hour) * 60 + t.minute

/-- `old_time + datetime.timedelta(minutes=1)`: calendar-correct rollover. -/
def addOneMinute (t : PyDateTime) : PyDateTime :=
  if t.minute < 59 then { t with minute := t.minute + 1 }
  else if t.hour < 23 then { t with minute := 0, hour := t.hour + 1 }
  else if t.day < daysInMonth t.year t.month then
    { t with minute := 0, hour := 0, day := t.day + 1 }
  else if t.month < 12 then
    { year := t.year, month := t.month + 1, day := 1, hour := 0, minute := 0 }
  else { year := t.year + 1, month := 1, day := 1, hour := 0, minute := 0 }

/-- `Timeline._get_season_for_date` month→season mapping. -/
def seasonForMonth (m : Nat) : String :=
  if m = 3 ∨ m = 4 ∨ m = 5 then "Spring"
  else if m = 6 ∨ m = 7 ∨ m = 8 then "Summer"
  else if m = 9 ∨ m = 10 ∨ m = 11 then "Autumn"
  else "Winter"

/-- The season of a timestamp. -/
def PyDateTime.season (t : PyDateTime) : String := seasonForMonth t.month

/-- The events `Timeline._tick` can publish, with their payloads. -/
inductive TimeEvent
  | minutePassed (t : PyDateTime)
  | hourPassed (t : PyDateTime)
  | dayPassed (t : PyDateTime)
  | seasonChanged (season : String)
deriving DecidableEq, Repr

/-- `Timeline._tick` (`timeline.py`, lines 123-145): advance one minute, then
publish `on_minute_passed` always, `on_hour_passed` when the hour component
changed, `on_day_passed` when the day component changed, and, inside the
day-changed branch, `on_season_changed` with the new season when it differs
from the old one. Returns the new time and the published events in order. -/
def tick (t : PyDateTime) : PyDateTime × List TimeEvent :=
  let t2 := addOneMinute t
  let evs := [TimeEvent.minutePassed t2]
  let evs := evs ++ (if t.hour ≠ t2.hour then [TimeEvent.hourPassed t2] else [])
  let evs := evs ++
    (if t.day ≠ t2.day then
      [TimeEvent.dayPassed t2] ++
        (if t.season ≠ t2.season then [TimeEvent.seasonChanged t2.season] else [])
    else [])
  (t2, evs)

/-! ### cognition/memory.py -/

/-- `MemoryType` enum. -/
inductive MemoryType
  | observation | dialogue | action | reflection | mentorGuidance | userSpecified
deriving DecidableEq, Repr

/-- The `.value` strings of `MemoryType` (Chinese in the source). -/
def MemoryType.value : MemoryType → String
  | .observation => "观察"
  | .dialogue => "对话"
  | .action => "行动"
  | .reflection => "反思"
  | .mentorGuidance => "导师建议"
  | .userSpecified => "用户指定"

/-- `MemoryType(s)` value lookup. -/
def memoryTypeFromValue (s : String) : Option MemoryType :=
  [MemoryType.observation, .dialogue, .action, .reflection, .mentorGuidance,
    .userSpecified].foldr (fun m acc => if m.value = s then some m else acc) none

/-- `MemoryRecord` (`memory.py`). Timestamps are unix seconds, modelled as
reals because the retrieval scoring runs on floats. -/
structure MemoryRecord where
  memoryId : String
  agentId : String
  tsUnix : ℝ
  mtype : MemoryType
  content : String
  importance : Int
  relatedAgentIds : Option (List String)

/-- Metadata of a stored LangChain `Document`. Fields the vector store might
not return are optional; `mtype` is the raw stored type string. -/
structure DocMeta where
  agentId : Option String
  timestampIso : Option ℝ
  timestampUnix : Option ℝ
  mtype : String
  importance : Option Int
  memoryId : Option String
  relatedAgentIds : String

/-- A stored LangChain `Document`. -/
structure LDocument where
  pageContent : String
  meta : DocMeta

/-- `MemoryRecord.to_langchain_document`. -/
def toLangchainDocument (r : MemoryRecord) : LDocument :=
  { pageContent := r.content,
    meta := { agentId := some r.agentId, timestampIso := some r.tsUnix,
              timestampUnix := some r.tsUnix, mtype := r.mtype.value,
              importance := some r.importance, memoryId := some r.memoryId,
              relatedAgentIds := match r.relatedAgentIds with
                | some ids => String.intercalate "," ids
                | none => "" } }

/-- `MemoryRecord.from_langchain_document`, as a fallible conversion: `none`
models the exceptions (missing metadata key, unknown type value, importance
outside the validated 1..10 range) that `retrieve_memories` catches per record.
The iso timestamp is preferred, falling back to the unix one. -/
def fromLangchainDocument (d : LDocument) : Option MemoryRecord :=
  match d.meta.agentId with
  | none => none
  | some aid =>
    match (match d.meta.timestampIso with
           | some t => some t
           | none => d.meta.timestampUnix) with
    | none => none
    | some ts =>
      match memoryTypeFromValue d.meta.mtype with
      | none => none
      | some ty =>
        match d.meta.importance with
        | none => none
        | some imp =>
          if 1 ≤ imp ∧ imp ≤ 10 then
            some { memoryId := d.meta.memoryId.getD "00000000-0000-0000-0000-000000000000",
                   agentId := aid, tsUnix := ts, mtype := ty,
                   content := d.pageContent, importance := imp,
                   relatedAgentIds := if d.meta.relatedAgentIds = "" then none
                     else some (d.meta.relatedAgentIds.splitOn ",") }
          else none

/-- `MemorySystem._calculate_importance`, keyword-heuristic branch (no
importance LLM configured): first matching marker group wins. -/
def calculateImportance (content : String) : Int :=
  let contentLower := lowerStr content
  if strContains content "反思" || strContains content "总结" ||
      containsChars contentLower "insight".data then 8
  else if strContains content "导师建议" ||
      containsChars contentLower "mentor suggests".data then 10
  else if strContains content "说：" || containsChars contentLower "asked:".data then 6
  else if strContains content "看到" || containsChars contentLower "observed:".data then 4
  else 5

/-- `MemorySystem.add_memory` with no importance LLM configured: reject empty
content, otherwise overwrite the record's importance with the freshly computed
score and store the resulting document (keyed by the record id). Returns the
stored document, or `none` when the add was skipped. -/
def addMemory (r : MemoryRecord) : Option LDocument :=
  if r.content = "" then none
  else some (toLangchainDocument { r with importance := calculateImportance r.content })

/-- The RRI combined score `_apply_rri_weighting` computes for one candidate:
`relevance * (importance / 10) * decay_factor ^ hours_ago`, with importance
defaulting to 5 and the timestamp defaulting to `now` when absent. -/
noncomputable def rriCombined (decay nowUnix : ℝ) (d : LDocument) (relevance : ℝ) : ℝ :=
  let importance : ℝ := ((d.meta.importance.getD 5 : Int) : ℝ)
  let tsUnix := d.meta.timestampUnix.getD nowUnix
  let hoursAgo := (nowUnix - tsUnix) / 3600
  let recency := Real.rpow decay hoursAgo
  relevance * (importance / 10) * recency

/-- `MemorySystem._apply_rri_weighting`: score every candidate, then stable-sort
descending by combined score (Python `list.sort(key=..., reverse=True)`). -/
noncomputable def applyRriWeighting (decay : ℝ) (results : List (LDocument × ℝ))
    (nowUnix : ℝ) : List (LDocument × ℝ) :=
  let weighted := results.map (fun p => (p.1, rriCombined decay nowUnix p.1 p.2))
  weighted.mergeSort (fun a b => decide (b.2 ≤ a.2))

/-- `MemorySystem.retrieve_memories` below the vector-store boundary:
`results` is what the similarity search returned (document, raw score); empty
results short-circuit; otherwise re-weight, keep the top `top_k`, and convert
each kept document, dropping those whose conversion fails. -/
noncomputable def retrieveMemories (decay : ℝ) (results : List (LDocument × ℝ))
    (nowUnix : ℝ) (topK : Nat) : List MemoryRecord :=
  if results.isEmpty then []
  else ((applyRriWeighting decay results nowUnix).take topK).filterMap
    (fun p => fromLangchainDocument p.1)

/-! ### map.py : find_path (Dijkstra with a lazy-deletion heap) -/

/-- All loaded location names. -/
def locNames (wm : WorldMap) : List String := wm.locations.map (·.1)

/-- Adjacency of a node (`self._connections.get(u)`, empty when absent). -/
def adjList (wm : WorldMap) (v : String) : List (String × Nat) :=
  (alookup wm.connections v).getD []

/-- The direct edge weight from `a` to `b`, when declared. -/
def edgeWeight (wm : WorldMap) (a b : String) : Option Nat :=
  (alookup wm.connections a).bind (fun d => alookup d b)

/-- A walk through declared edges from `a` to `b` of total weight `k`. -/
inductive Chain (wm : WorldMap) : String → String → Nat → Prop
  | refl (a : String) : Chain wm a a 0
  | cons {a b c : String} {w k : Nat} :
      edgeWeight wm a b = some w → Chain wm b c k → Chain wm a c (w + k)

/-- `b` is reachable from `a` through declared edges. -/
def Reachable (wm : WorldMap) (a b : String) : Prop := ∃ k, Chain wm a b k

/-- Total weight of a location sequence: `some` of the sum of the consecutive
edge weights when every consecutive pair is a declared edge (a one-element
list has cost 0), `none` otherwise or for the empty list. -/
def listCost (wm : WorldMap) : List String → Option Nat
  | [] => none
  | [_] => some 0
  | a :: b :: rest =>
    match edgeWeight wm a b with
    | none => none
    | some w => (listCost wm (b :: rest)).map (w + ·)

/-- Well-formedness that `load_map_from_files` establishes: unique dict keys,
edge endpoints among loaded locations, and positive validated weights. -/
def MapWF (wm : WorldMap) : Prop :=
  (locNames wm).Nodup ∧
  (wm.connections.map (·.1)).Nodup ∧
  (∀ p ∈ wm.connections, (p.2.map (·.1)).Nodup) ∧
  (∀ p ∈ wm.connections, p.1 ∈ locNames wm ∧ ∀ q ∈ p.2, q.1 ∈ locNames wm) ∧
  (∀ p ∈ wm.connections, ∀ q ∈ p.2, 1 ≤ q.2)

instance (wm : WorldMap) : Decidable (MapWF wm) := by
  unfold MapWF; infer_instance

/-- Heap order on `(distance, node)` entries: Python compares these tuples
lexicographically, strings by code points. -/
def pqLeB (a b : Nat × String) : Bool :=
  if a.1 < b.1 then true
  else if b.1 < a.1 then false
  else a.2 = b.2 || strLt a.2 b.2

/-- The least entry among `e :: l` under `pqLeB` (what `heappop` returns). -/
def pqMinOf (e : Nat × String) (l : List (Nat × String)) : Nat × String :=
  l.foldl (fun m x => if pqLeB m x then m else x) e

/-- `heapq.heappop`: remove and return the least entry of the heap. -/
def popMin (pq : List (Nat × String)) :
    Option ((Nat × String) × List (Nat × String)) :=
  match pq with
  | [] => none
  | e :: rest =>
    let m := pqMinOf e rest
    some (m, (e :: rest).erase m)

/-- The mutable state of `find_path`: the distance table (`none` standing for
`float("inf")`), the predecessor table, and the heap. -/
structure DijState where
  dist : String → Option Nat
  prev : String → Option String
  pq : List (Nat × String)

/-- One relaxation (`find_path`, lines 227-233): if the path through `u`
improves on the neighbor's distance, update distance and predecessor and push
the new entry. -/
def relaxStep (u : String) (d : Nat) (s : DijState) (vw : String × Nat) : DijState :=
  let nd := d + vw.2
  let better := match s.dist vw.1 with
    | none => true
    | some dv => nd < dv
  if better then
    { dist := fun x => if x = vw.1 then some nd else s.dist x,
      prev := fun x => if x = vw.1 then some u else s.prev x,
      pq := s.pq ++ [(nd, vw.1)] }
  else s

/-- Relax every outgoing edge of `u` in declaration order. -/
def relaxAll (u : String) (d : Nat) (nbrs : List (String × Nat)) (s : DijState) :
    DijState :=
  nbrs.foldl (relaxStep u d) s

/-- Follow the predecessor table from `node` (`find_path`, lines 216-220),
producing `[node, …, start]`; `fuel` bounds the chase and is chosen large
enough that it never runs out on states produced by the loop. -/
def buildPath (prev : String → Option String) : String → Nat → List String
  | node, 0 => [node]
  | node, fuel + 1 =>
    match prev node with
    | none => [node]
    | some p => node :: buildPath prev p fuel

/-- The Dijkstra loop of `find_path` (lines 210-234). Result: `none` when the
fuel runs out (proven unreachable for well-formed maps), `some none` when the
heap empties or the popped end node has infinite recorded distance (the
`break`), `some (some (path, cost))` on success. -/
def dijkstraLoop (wm : WorldMap) (endName : String) :
    DijState → Nat → Option (Option (List String × Nat))
  | _, 0 => none
  | s, fuel + 1 =>
    match popMin s.pq with
    | none => some none
    | some (du, pq2) =>
      let d := du.1
      let u := du.2
      let stale := match s.dist u with
        | none => false          -- `d > float("inf")` is false
        | some dv => decide (dv < d)
      if stale then dijkstraLoop wm endName { s with pq := pq2 } fuel
      else if u = endName then
        match s.dist endName with
        | none => some none
        | some dv => some (some ((buildPath s.prev endName (dv + 1)).reverse, dv))
      else
        match alookup wm.connections u with
        | none => dijkstraLoop wm endName { s with pq := pq2 } fuel
        | some nbrs =>
          dijkstraLoop wm endName (relaxAll u d nbrs { s with pq := pq2 }) fuel

/-- Sum of all declared edge weights. -/
def totalWeight (wm : WorldMap) : Nat :=
  (wm.connections.map (fun p => (p.2.map (·.2)).sum)).sum

/-- Fuel that strictly dominates the loop's termination measure. -/
def dijkstraFuel (wm : WorldMap) : Nat :=
  (locNames wm).length * (totalWeight wm + 1) + 2

/-- `WorldMap.find_path` (`map.py`, lines 196-236). -/
def WorldMap.findPath (wm : WorldMap) (startName endName : String) :
    Option (List String × Nat) :=
  if ¬ (wm.isValidLocation startName ∧ wm.isValidLocation endName) then none
  else if startName = endName then some ([startName], 0)
  else
    let s0 : DijState :=
      { dist := fun v => if v = startName then some 0 else none,
        prev := fun _ => none,
        pq := [(0, startName)] }
    match dijkstraLoop wm endName s0 (dijkstraFuel wm) with
    | none => none
    | some r => r

/-! #### Invariants and the termination measure of the Dijkstra loop -/

/-- Node `v`, at recorded distance `dv`, has all its outgoing edges relaxed. -/
def closedAt (wm : WorldMap) (dist : String → Option Nat) (v : String) (dv : Nat) :
    Prop :=
  ∀ q ∈ adjList wm v, ∃ dz, dist q.1 = some dz ∧ dz ≤ dv + q.2

/-- Sum of the weights of declared edges whose target already has a finite
recorded distance; bounds every recorded distance (`distBound`). -/
def sumAssigned (wm : WorldMap) (dist : String → Option Nat) : Nat :=
  (wm.connections.map
    (fun p => (p.2.map (fun q => if dist q.1 = none then 0 else q.2)).sum)).sum

/-- Loop invariant of `find_path`'s Dijkstra loop. -/
structure DijInv (wm : WorldMap) (startName endName : String) (s : DijState) : Prop where
  distStart : s.dist startName = some 0
  pqDist : ∀ e ∈ s.pq, ∃ dx, s.dist e.2 = some dx ∧ dx ≤ e.1
  pqNodes : ∀ e ∈ s.pq, e.2 ∈ locNames wm
  distNodes : ∀ v, s.dist v ≠ none → v ∈ locNames wm
  openClosed : ∀ v dv, s.dist v = some dv →
    (dv, v) ∈ s.pq ∨ closedAt wm s.dist v dv
  endOpen : ∀ de, s.dist endName = some de → (de, endName) ∈ s.pq
  distBound : ∀ v dv, s.dist v = some dv → dv ≤ sumAssigned wm s.dist
  prevSound : ∀ v u, s.prev v = some u → ∃ dv dw w, s.dist v = some dv ∧
    s.dist u = some dw ∧ edgeWeight wm u v = some w ∧ dw + w ≤ dv
  prevStart : ∀ v, s.dist v ≠ none → s.prev v = none → v = startName

/-- Mid-relaxation invariant: like `DijInv` but the popped node `u` (already
removed from the heap) is exempt from the open-or-closed dichotomy, and its
distance is pinned at the popped value `d`. -/
structure RInv (wm : WorldMap) (startName endName u : String) (d : Nat)
    (s : DijState) : Prop where
  distU : s.dist u = some d
  distStart : s.dist startName = some 0
  pqDist : ∀ e ∈ s.pq, ∃ dx, s.dist e.2 = some dx ∧ dx ≤ e.1
  pqNodes : ∀ e ∈ s.pq, e.2 ∈ locNames wm
  distNodes : ∀ v, s.dist v ≠ none → v ∈ locNames wm
  openClosedNe : ∀ v dv, s.dist v = some dv → v ≠ u →
    (dv, v) ∈ s.pq ∨ closedAt wm s.dist v dv
  endOpen : ∀ de, s.dist endName = some de → (de, endName) ∈ s.pq
  distBound : ∀ v dv, s.dist v = some dv → dv ≤ sumAssigned wm s.dist
  prevSound : ∀ v u2, s.prev v = some u2 → ∃ dv dw w, s.dist v = some dv ∧
    s.dist u2 = some dw ∧ edgeWeight wm u2 v = some w ∧ dw + w ≤ dv
  prevStart : ∀ v, s.dist v ≠ none → s.prev v = none → v = startName

/-- Rank of a recorded distance for the termination measure: `cap + 1` for
infinity, the value itself otherwise (kept below `cap + 1` by `distBound`). -/
def rank (cap : Nat) : Option Nat → Nat
  | none => cap + 1
  | some d => d

/-- Sum of distance ranks over all locations. -/
def rankSum (wm : WorldMap) (dist : String → Option Nat) : Nat :=
  ((locNames wm).map (fun v => rank (totalWeight wm) (dist v))).sum

/-- Termination measure: distance ranks plus heap size; strictly decreases on
every loop iteration. -/
def dmeasure (wm : WorldMap) (s : DijState) : Nat :=
  rankSum wm s.dist + s.pq.length

/-! ### Concrete fixtures used by evaluation theorems -/

/-- The Cafe location as the shipped example data declares it. -/
def cafeLocation : Location :=
  { name := "Cafe", ltype := .commercial,
    objects := ["CoffeeMachine", "CafeCounter", "Table"],
    services := some [("coffee", 5), ("sandwich", 8)],
    availableJobs := some [("barista", 1)] }

/-- A world map containing just the Cafe. -/
def cafeMap : WorldMap :=
  { locations := [("Cafe", cafeLocation)], connections := [] }

/-- The Park location as the shipped example data declares it. -/
def parkLocation : Location :=
  { name := "Park", ltype := .outdoor, objects := ["Bench"] }

/-- A world map containing just the Park. -/
def parkMap : WorldMap :=
  { locations := [("Park", parkLocation)], connections := [] }

/-- The Supermarket location as the shipped example data declares it. -/
def supermarketLocation : Location :=
  { name := "Supermarket", ltype := .commercial,
    objects := ["CheckoutCounter", "Shelf_Food", "Shelf_Drink"],
    availableJobs := some [("cashier", 1)] }

/-- A world map containing just the Supermarket. -/
def supermarketMap : WorldMap :=
  { locations := [("Supermarket", supermarketLocation)], connections := [] }

/-- A concrete draw stream: 3 for the first `randint`, -5 afterwards. -/
def benchDraws : Nat → Int := fun n => if n = 0 then 3 else -5

/-- A constant draw stream. -/
def zeroDraws : Nat → Int := fun _ => 0

/-- A `state_changes` entry that cannot raise: a direct enum set, or a delta
applied to an attribute that is not one of the two enum attributes. -/
def changeSafe (p : String × ChangeSpec) : Bool :=
  match p.2 with
  | .setStr _ => true
  | _ => !(p.1 = "mood" || p.1 = "health_status")

/-- Two-level lookup in a connection table. -/
def lookup2 (conns : List (String × List (String × Nat))) (a b : String) : Option Nat :=
  (alookup conns a).bind (fun d => alookup d b)

/-- The edge `(a, b, t)` was accepted by the connection-loading validation. -/
def acceptedEdge (wm : WorldMap) (raw : List (String × List (String × Int)))
    (a b : String) (t : Nat) : Prop :=
  lookup2 (loadConnections wm raw) a b = some t

instance (wm : WorldMap) (raw : List (String × List (String × Int)))
    (a b : String) (t : Nat) : Decidable (acceptedEdge wm raw a b t) := by
  unfold acceptedEdge; infer_instance

/-- Three bare locations used by the loading counterexample. -/
def abcMap : WorldMap :=
  { locations := [("A", ⟨"A", .outdoor, [], none, none⟩),
                  ("B", ⟨"B", .outdoor, [], none, none⟩),
                  ("C", ⟨"C", .outdoor, [], none, none⟩)],
    connections := [] }

/-- A raw connection table declaring both directions of A-B with different
weights, plus a self-loop on C. -/
def rawAsym : List (String × List (String × Int)) :=
  [("A", [("B", 5)]), ("B", [("A", 7)]), ("C", [("C", 3)])]

/-- A small well-formed map exercising `find_path`: `A → B → C` beats the
direct `A → C` edge. -/
def dijMap : WorldMap :=
  { locations := [("A", ⟨"A", .outdoor, [], none, none⟩),
                  ("B", ⟨"B", .outdoor, [], none, none⟩),
                  ("C", ⟨"C", .outdoor, [], none, none⟩)],
    connections := [("A", [("B", 2), ("C", 5)]), ("B", [("C", 1)])] }

/-- Abbreviation for connection tables. -/
def Conns : Type := List (String × List (String × Nat))

/-- The survivor list of one raw adjacency row under loading validation. -/
def validFilter (wm : WorldMap) (ds : List (String × Int)) : List (String × Nat) :=
  (ds.filter (fun q => wm.isValidLocation q.1 && decide (0 < q.2))).map
    (fun q => (q.1, q.2.toNat))

/-- All directed edges `(source, target, weight)` of a connection table, in
scan order. -/
def edgesOf (conns0 : List (String × List (String × Nat))) :
    List (String × String × Nat) :=
  conns0.flatMap (fun p => p.2.map (fun q => (p.1, q.1, q.2)))

/-- `ensureStep` reindexed over an edge triple. -/
def estep (st : List (String × List (String × Nat)) × List (String × List (String × Nat)))
    (e : String × String × Nat) :
    List (String × List (String × Nat)) × List (String × List (String × Nat)) :=
  ensureStep e.1 e.2.1 e.2.2 st

/-- Invariant of the `_ensure_bidirectional_connections` scan: `conns` is the
original table extended only by empty rows for new keys; every planned
addition `toAdd[y][x] = t` records a processed edge `x→y` whose reverse was
absent from the original table; and every processed edge either already had a
declared reverse or has its reverse planned with the same weight. -/
structure ScanInv (conns0 : List (String × List (String × Nat)))
    (processed : List (String × String × Nat))
    (toAdd conns : List (String × List (String × Nat))) : Prop where
  connsShape : ∀ s, alookup conns s = alookup conns0 s ∨
    (alookup conns0 s = none ∧ alookup conns s = some [])
  toAddKeys : (toAdd.map (·.1)).Nodup
  toAddSound : ∀ y ds, alookup toAdd y = some ds → (ds.map (·.1)).Nodup ∧
    ∀ x t, alookup ds x = some t → (x, y, t) ∈ processed ∧ lookup2 conns0 y x = none
  cover : ∀ e ∈ processed, lookup2 conns0 e.2.1 e.1 ≠ none ∨
    ((alookup toAdd e.2.1).bind (fun ds => alookup ds e.1)) = some e.2.2

/-- The occupancy-ledger invariant of claim C4: each agent id appears at most
once, and no `(location, job type)` slot holds more occupants than the map
declares for it. -/
def LedgerWF (wm : WorldMap) (ws : WorldState) : Prop :=
  (ws.occupiedJobs.map (·.1)).Nodup ∧
  ∀ locName jobType : String,
    (ws.countWorkers locName jobType : Int) ≤ declaredCapacity wm locName jobType

/-- Declared job capacities are nonnegative (JSON job tables declare worker
counts). -/
def CapsNonneg (wm : WorldMap) : Prop :=
  ∀ p ∈ wm.locations, ∀ q ∈ p.2.availableJobs.getD [], 0 ≤ q.2

instance (wm : WorldMap) : Decidable (CapsNonneg wm) := by
  unfold CapsNonneg; infer_instance

/-! ## Theorems -/

/-! ### Claim C10 : add_memory recomputes and stores importance -/

/-- Claim C10: for every memory record with non-empty content, `add_memory`
stores the document of the record with its importance replaced by the freshly
computed keyword-heuristic score (`_calculate_importance`, no LLM configured),
regardless of the importance value the caller had set on the record. -/
theorem addMemory_overwrites_importance (r : MemoryRecord) (h : r.content ≠ "") :
    addMemory r =
      some (toLangchainDocument { r with importance := calculateImportance r.content }) ∧
    ∀ d, addMemory r = some d →
      d.meta.importance = some (calculateImportance r.content) := by
  constructor
  · simp [addMemory, h]
  · intro d hd
    simp [addMemory, h] at hd
    simp [← hd, toLangchainDocument]

/-- Witness for C10: a record whose caller-set importance 9 is overwritten by
the observation-marker score 4. -/
theorem addMemory_overwrites_importance_witness :
    addMemory { memoryId := "m1", agentId := "adam_01", tsUnix := 0,
                mtype := .observation, content := "我看到了一只猫",
                importance := 9, relatedAgentIds := none } =
      some (toLangchainDocument
        { memoryId := "m1", agentId := "adam_01", tsUnix := 0,
          mtype := .observation, content := "我看到了一只猫",
          importance := calculateImportance "我看到了一只猫",
          relatedAgentIds := none }) ∧
    calculateImportance "我看到了一只猫" = 4 := by
  refine ⟨(addMemory_overwrites_importance _ (by decide)).1, by decide⟩

/-! ### Claim C5 : is_idle on a completed action raises (code bug) -/

/-- Claim C5 (code-bug evidence): an agent with a recorded in-progress action
whose completion timestamp has passed does not become idle — `is_idle` reaches
`isinstance(action_obj, actions.WorkAction)` and `agents/interactions.py`
defines no `WorkAction` class, so the attribute lookup raises
`AttributeError` instead of returning `True`, clearing the action, and
releasing any job slot. Evaluated at a concrete completed wait action. -/
theorem isIdle_completed_action_raises :
    (AgentRec.isIdle ⟨"adam_01", some ⟨.wait, 100⟩⟩ 100 ⟨[]⟩) =
      .error (.attributeError
        "module metasimpy.core.agents.interactions has no attribute WorkAction") ∧
    moduleDefinesClass "WorkAction" = false ∧
    alookup ACTION_MAPPING "Work" = none := by
  refine ⟨by rfl, by decide, by decide⟩

/-! ### Claim C6 : perform_work calls a method WorldMap does not have (code bug) -/

/-- Claim C6 (code-bug evidence): an agent at the Cafe requesting 60 minutes of
barista work finds the `CafeCounter` rule with an hourly wage, but the
subsequent ledger-assignment call is `world_map.assign_job_to_agent(...)` and
`WorldMap` defines no such method (it belongs to `WorldState`), so the resolver
raises `AttributeError` instead of assigning, paying, and returning the
requested duration. The agent state is untouched at that point. -/
theorem performWork_raises_at_assignment :
    performWork {} "Cafe" "barista" 60 cafeMap =
      ({}, .error (.attributeError
        "WorldMap object has no attribute assign_job_to_agent")) ∧
    worldMapHasMethod "assign_job_to_agent" = false ∧
    (alookup INTERACTION_RULES "CafeCounter").bind (·.hourlyWage) = some 15 := by
  refine ⟨by rfl, by decide, by rfl⟩

/-! ### Claim C8 : state effects are stored without clamping, and the
location-type gate makes every rule-guarded interaction fail (code bug) -/

/-- Claim C8 (code-bug evidence). Two divergences from the claim, both at
concrete inputs: (1) an agent at the Park (type `OUTDOOR`) interacting with
the Bench gets `(False, 1)` — no interaction with a declared
`required_location_type` can succeed, because the gate compares the location
type's Chinese `.value` (here `"户外"`) against the English member name
`"OUTDOOR"`; (2) the state-effect application the success path would run
(`interact_with_object` lines 87-95) stores the sampled result without any
clamping: starting from energy 100 a sampled Bench effect of +3 stores energy
103, above the declared `le=100` bound, and stores stress -5, below `ge=0`. -/
theorem interact_type_gate_and_no_clamp :
    interactWithObject {} "Park" "Bench" parkMap benchDraws = ({}, .ok (false, 1)) ∧
    LocationType.outdoor.value = "户外" ∧
    (alookup INTERACTION_RULES "Bench").bind (·.requiredLocationType) = some "OUTDOOR" ∧
    applyStateChanges {} [("energy", .range 1 5), ("stress_level", .range (-10) (-1))]
        benchDraws 0 =
      ({ energy := 103, stressLevel := -5 }, .ok 2) := by
  refine ⟨by rfl, by rfl, by rfl, by rfl⟩

/-! ### Claim C7 : failing resolver calls return (False, 1) with the agent
state unchanged -/

/-- For attributes other than the two enum attributes, `getattr` yields either
nothing or an integer value. -/
theorem getAttrVal_int_of_ne (st : AgentInternalState) (attr : String)
    (h1 : attr ≠ "mood") (h2 : attr ≠ "health_status") (v : AttrVal)
    (h : st.getAttrVal attr = some v) : ∃ n, v = AttrVal.intVal n := by
  unfold AgentInternalState.getAttrVal at h
  split at h <;> simp_all <;> exact ⟨_, h.symm⟩

/-- A safe state-change entry never raises. -/
theorem applyStateChange_safe (st : AgentInternalState) (attr : String)
    (spec : ChangeSpec) (σ : Nat → Int) (i : Nat)
    (hsafe : changeSafe (attr, spec) = true) :
    ∃ st2 i2, applyStateChange st attr spec σ i = (st2, .ok i2) := by
  unfold applyStateChange
  cases hv : st.getAttrVal attr with
  | none => exact ⟨st, i, rfl⟩
  | some v =>
    cases spec with
    | setStr s =>
      by_cases hm : attr = "mood"
      · subst hm
        cases hmv : moodFromValue s <;> simp [hmv]
      · by_cases hh : attr = "health_status"
        · subst hh
          cases hmv : healthFromValue s <;> simp [hm, hmv]
        · simp [hm, hh]
    | range lo hi =>
      simp only [changeSafe, Bool.not_eq_true', Bool.or_eq_false_iff,
        decide_eq_false_iff_not] at hsafe
      obtain ⟨n, rfl⟩ := getAttrVal_int_of_ne st attr hsafe.1 hsafe.2 v hv
      exact ⟨_, _, rfl⟩
    | fixed n =>
      simp only [changeSafe, Bool.not_eq_true', Bool.or_eq_false_iff,
        decide_eq_false_iff_not] at hsafe
      obtain ⟨m, rfl⟩ := getAttrVal_int_of_ne st attr hsafe.1 hsafe.2 v hv
      exact ⟨_, _, rfl⟩

/-- A list of safe state changes never raises. -/
theorem applyStateChanges_safe (changes : List (String × ChangeSpec))
    (hsafe : ∀ p ∈ changes, changeSafe p = true) :
    ∀ st σ i, ∃ st2 i2, applyStateChanges st changes σ i = (st2, .ok i2) := by
  induction changes with
  | nil => exact fun st σ i => ⟨st, i, rfl⟩
  | cons p rest ih =>
    intro st σ i
    obtain ⟨attr, spec⟩ := p
    obtain ⟨st2, i2, hstep⟩ :=
      applyStateChange_safe st attr spec σ i (hsafe _ (List.mem_cons_self _ _))
    obtain ⟨st3, i3, hrest⟩ := ih (fun q hq => hsafe q (List.mem_cons_of_mem _ hq)) st2 σ i2
    exact ⟨st3, i3, by simp only [applyStateChanges, hstep, hrest]⟩

/-- Every `state_changes` table of the shipped `INTERACTION_RULES` is safe. -/
theorem interactionRules_safe (obj : String) (rules : InteractionRule)
    (h : alookup INTERACTION_RULES obj = some rules) :
    ∀ p ∈ rules.stateChanges, changeSafe p = true := by
  simp only [INTERACTION_RULES, alookup] at h
  split_ifs at h <;> (simp only [Option.some.injEq] at h; subst h; decide)

/-- Every failing return of `interact_with_object` is `(False, 1)` with the
agent state untouched (all failure returns precede the cost deduction and the
state-effect loop). -/
theorem interact_fail_unchanged (st : AgentInternalState) (loc obj : String)
    (wm : WorldMap) (σ : Nat → Int) (st2 : AgentInternalState) (d : Nat)
    (h : interactWithObject st loc obj wm σ = (st2, .ok (false, d))) :
    st2 = st ∧ d = 1 := by
  unfold interactWithObject at h
  iterate 14 (all_goals try split at h
              all_goals try simp_all)

/-- `interact_with_object` never raises: the only raising path would be an
enum-plus-integer type confusion, and every `state_changes` table of the
shipped rules is safe. -/
theorem interact_no_raise (st : AgentInternalState) (loc obj : String)
    (wm : WorldMap) (σ : Nat → Int) (st2 : AgentInternalState) (e : PyErr)
    (h : interactWithObject st loc obj wm σ = (st2, .error e)) : False := by
  unfold interactWithObject at h
  iterate 14 (all_goals try split at h
              all_goals try simp_all)
  all_goals rename alookup INTERACTION_RULES _ = some _ => hrules
  all_goals rename applyStateChanges _ _ _ _ = _ => hch
  all_goals
    (obtain ⟨stX, iX, hok⟩ :=
      applyStateChanges_safe _ (interactionRules_safe _ _ hrules) _ σ 0
     rw [hok] at hch
     simp at hch)

/-- Every failing return of `perform_work` is `(False, 1)` with the agent
state untouched, and even the raising ledger-assignment path mutates
nothing. -/
theorem performWork_fail_unchanged (st : AgentInternalState) (loc job : String)
    (minutes : Nat) (wm : WorldMap) (st2 : AgentInternalState) :
    (∀ d, performWork st loc job minutes wm = (st2, .ok (false, d)) → st2 = st ∧ d = 1) ∧
    (∀ e, performWork st loc job minutes wm = (st2, .error e) → st2 = st) := by
  constructor
  · intro d h
    unfold performWork at h
    iterate 14 (all_goals try split at h
                all_goals try simp_all)
  · intro e h
    unfold performWork at h
    iterate 14 (all_goals try split at h
                all_goals try simp_all)

/-- Every failing return of `buy_item` is `(False, 1)` with the agent state
untouched, and `buy_item` never raises. -/
theorem buyItem_fail_unchanged (st : AgentInternalState) (loc item : String)
    (quantity : Nat) (wm : WorldMap) (σ : Nat → Int) (st2 : AgentInternalState) :
    (∀ d, buyItem st loc item quantity wm σ = (st2, .ok (false, d)) → st2 = st ∧ d = 1) ∧
    (∀ e, buyItem st loc item quantity wm σ = (st2, .error e) → False) := by
  constructor
  · intro d h
    unfold buyItem at h
    iterate 14 (all_goals try split at h
                all_goals try simp_all)
  · intro e h
    unfold buyItem at h
    iterate 14 (all_goals try split at h
                all_goals try simp_all)

/-- Claim C7: every failing call of the three resolvers (object interaction,
work, purchase) leaves the agent's internal state and money exactly unchanged
and returns `(False, 1)`; calls that raise instead of returning (the work
resolver's broken ledger-assignment call) also mutate nothing. Concretely, an
agent with money 3 attempting the one purchase priced at 5 in the shipped
rules (the CoffeeMachine) gets `(False, 1)` with money still 3, and a money-3
purchase of two bread (total cost 6) through `buy_item` also gets `(False, 1)`
with money still 3. -/
theorem resolverFailuresAtomic :
    (∀ st loc obj wm σ st2 d,
        interactWithObject st loc obj wm σ = (st2, .ok (false, d)) → st2 = st ∧ d = 1) ∧
    (∀ st loc obj wm σ st2 e,
        interactWithObject st loc obj wm σ = (st2, .error e) → False) ∧
    (∀ st loc job m wm st2 d,
        performWork st loc job m wm = (st2, .ok (false, d)) → st2 = st ∧ d = 1) ∧
    (∀ st loc job m wm st2 e,
        performWork st loc job m wm = (st2, .error e) → st2 = st) ∧
    (∀ st loc item q wm σ st2 d,
        buyItem st loc item q wm σ = (st2, .ok (false, d)) → st2 = st ∧ d = 1) ∧
    (∀ st loc item q wm σ st2 e,
        buyItem st loc item q wm σ = (st2, .error e) → False) ∧
    interactWithObject { money := 3 } "Cafe" "CoffeeMachine" cafeMap zeroDraws =
      ({ money := 3 }, .ok (false, 1)) ∧
    buyItem { money := 3 } "Supermarket" "bread" 2 supermarketMap zeroDraws =
      ({ money := 3 }, .ok (false, 1)) :=
  ⟨interact_fail_unchanged, interact_no_raise,
   fun st loc job m wm st2 d h => (performWork_fail_unchanged st loc job m wm st2).1 d h,
   fun st loc job m wm st2 e h => (performWork_fail_unchanged st loc job m wm st2).2 e h,
   fun st loc item q wm σ st2 d h => (buyItem_fail_unchanged st loc item q wm σ st2).1 d h,
   fun st loc item q wm σ st2 e h => (buyItem_fail_unchanged st loc item q wm σ st2).2 e h,
   by rfl, by rfl⟩

/-- Witness for C7: the general atomicity statement applied to the concrete
money-3 CoffeeMachine attempt it also proves. -/
theorem resolverFailuresAtomic_witness :
    ({ money := 3 } : AgentInternalState) = { money := 3 } ∧ (1 : Nat) = 1 :=
  resolverFailuresAtomic.1 _ "Cafe" "CoffeeMachine" cafeMap zeroDraws _ 1
    resolverFailuresAtomic.2.2.2.2.2.2.1

/-! ### Claim C4 : occupancy-ledger invariants -/

/-- A successful association-list lookup is a member. -/
theorem alookup_mem {β : Type} {l : List (String × β)} {k : String} {v : β}
    (h : alookup l k = some v) : (k, v) ∈ l := by
  induction l with
  | nil => simp [alookup] at h
  | cons p rest ih =>
    unfold alookup at h
    split at h
    · rename_i heq
      cases h
      simp [← heq]
    · exact List.mem_cons_of_mem _ (ih h)

/-- With nonnegative declared worker counts, every declared capacity is
nonnegative. -/
theorem declaredCapacity_nonneg {wm : WorldMap} (hcaps : CapsNonneg wm)
    (l j : String) : 0 ≤ declaredCapacity wm l j := by
  unfold declaredCapacity
  cases hl : wm.getLocation l with
  | none => simp
  | some loc =>
    cases hj : loc.availableJobs with
    | none => simp [hj, alookup]
    | some jobs =>
      dsimp only
      rw [hj]
      cases hjj : alookup jobs j with
      | none => simp [hjj]
      | some c =>
        rw [Option.getD_some, hjj, Option.getD_some]
        exact hcaps _ (alookup_mem hl) _ (by rw [hj]; exact alookup_mem hjj)

/-- Occupant count after recording one assignment. -/
theorem countWorkers_append (l : List (String × String × String))
    (a l0 j0 L J : String) :
    WorldState.countWorkers ⟨l ++ [(a, l0, j0)]⟩ L J =
      WorldState.countWorkers ⟨l⟩ L J + (if l0 = L ∧ j0 = J then 1 else 0) := by
  unfold WorldState.countWorkers
  rw [List.filter_append, List.length_append]
  congr 1
  by_cases h1 : l0 = L ∧ j0 = J
  · simp [h1.1, h1.2]
  · rw [if_neg h1]
    have : ¬ (l0 = L ∧ j0 = J) → ((l0 = L : Bool) && (j0 = J : Bool)) = false := by
      intro h; by_cases hL : l0 = L <;> simp_all
    simp [List.filter, this h1]

/-- Conjoining a second predicate cannot lengthen a filter. -/
theorem length_filter_and_le {α : Type} (p q : α → Bool) (l : List α) :
    (l.filter (fun a => q a && p a)).length ≤ (l.filter q).length := by
  induction l with
  | nil => simp
  | cons a rest ih =>
    by_cases hq : q a <;> by_cases hp : p a <;>
      simp [List.filter_cons, hq, hp] <;> omega

/-- Filtering the ledger cannot raise an occupant count. -/
theorem length_filter_filter_le {α : Type} (p q : α → Bool) (l : List α) :
    ((l.filter p).filter q).length ≤ (l.filter q).length := by
  rw [List.filter_filter]
  exact length_filter_and_le p q l

/-- Occupant counts do not increase when an agent is released. -/
theorem countWorkers_remove_le (ws : WorldState) (a L J : String) :
    (ws.removeAgentFromJob a).countWorkers L J ≤ ws.countWorkers L J := by
  unfold WorldState.removeAgentFromJob WorldState.countWorkers
  exact length_filter_filter_le _ _ _

/-- A positive availability check means the occupant count is strictly below
the declared capacity. -/
theorem isJobAvailable_lt {ws : WorldState} {l j : String} {wm : WorldMap}
    (h : ws.isJobAvailable l j wm = true) :
    (ws.countWorkers l j : Int) < declaredCapacity wm l j := by
  unfold WorldState.isJobAvailable at h
  split at h
  · exact absurd h (by simp)
  · rename_i loc hloc
    split at h
    · exact absurd h (by simp)
    · rename_i jobs hjobs
      split at h
      · exact absurd h (by simp)
      · simp only [] at h
        by_cases hmax : (alookup jobs j).getD 0 = 0
        · rw [if_pos hmax] at h
          exact absurd h (by simp)
        · rw [if_neg hmax] at h
          simp only [decide_eq_true_eq] at h
          unfold declaredCapacity
          rw [hloc]
          dsimp only
          rw [hjobs]
          exact h

/-- One assignment attempt preserves the ledger invariant. -/
theorem ledgerWF_assign {wm : WorldMap} {ws : WorldState} (hwf : LedgerWF wm ws)
    (a l j : String) : LedgerWF wm ((ws.assignJobToAgent a l j wm).2) := by
  unfold WorldState.assignJobToAgent
  by_cases hc : ((ws.occupiedJobs.map (·.1)).contains a) = true
  · rw [if_pos hc]
    exact hwf
  · rw [if_neg hc]
    by_cases ha : ws.isJobAvailable l j wm = true
    · rw [if_pos ha]
      constructor
      · rw [List.map_append]
        simp only [List.map_cons, List.map_nil, List.nodup_append]
        refine ⟨hwf.1, List.nodup_singleton a, ?_⟩
        intro x hx hmem
        simp only [List.mem_singleton] at hmem
        subst hmem
        exact hc (List.elem_eq_true_of_mem hx)
      · intro L J
        rw [show (⟨ws.occupiedJobs ++ [(a, l, j)]⟩ : WorldState).countWorkers L J =
              ws.countWorkers L J + (if l = L ∧ j = J then 1 else 0) from
            countWorkers_append ws.occupiedJobs a l j L J]
        by_cases he : l = L ∧ j = J
        · obtain ⟨rfl, rfl⟩ := he
          have hlt := isJobAvailable_lt ha
          simp only [and_self, if_pos]
          push_cast
          omega
        · rw [if_neg he]
          simpa using hwf.2 L J
    · rw [if_neg ha]
      exact hwf

/-- Releasing an agent preserves the ledger invariant. -/
theorem ledgerWF_remove {wm : WorldMap} {ws : WorldState} (hwf : LedgerWF wm ws)
    (a : String) : LedgerWF wm (ws.removeAgentFromJob a) := by
  constructor
  · exact hwf.1.sublist ((List.filter_sublist _).map _)
  · intro L J
    calc ((ws.removeAgentFromJob a).countWorkers L J : Int)
        ≤ (ws.countWorkers L J : Int) := by
          exact_mod_cast countWorkers_remove_le ws a L J
      _ ≤ _ := hwf.2 L J

/-- The ledger invariant is preserved by arbitrary operation sequences. -/
theorem ledgerWF_run {wm : WorldMap} (ops : List LedgerOp) :
    ∀ ws, LedgerWF wm ws → LedgerWF wm (ws.run wm ops) := by
  induction ops with
  | nil => exact fun _ h => h
  | cons op rest ih =>
    intro ws h
    cases op with
    | assign a l j => exact ih _ (ledgerWF_assign h a l j)
    | release a => exact ih _ (ledgerWF_remove h a)

/-- Claim C4: starting from the empty Occupancy Ledger, every sequence of
assign/release operations keeps each agent id unique and each
`(location, job type)` occupant count within the declared capacity; `assign`
returns `False` without mutation when the agent already holds a job or the
slot is unavailable; and `is_job_available` is `False` once the occupant count
has reached the declared capacity or the job type is not declared with nonzero
capacity. -/
theorem ledgerInvariants (wm : WorldMap) (hcaps : CapsNonneg wm) :
    (∀ ops : List LedgerOp, LedgerWF wm (WorldState.run ⟨[]⟩ wm ops)) ∧
    (∀ (ws : WorldState) (a l j : String),
        ((ws.occupiedJobs.map (·.1)).contains a = true ∨
          ws.isJobAvailable l j wm = false) →
        ws.assignJobToAgent a l j wm = (false, ws)) ∧
    (∀ (ws : WorldState) (l j : String),
        (declaredCapacity wm l j ≤ (ws.countWorkers l j : Int) ∨
          declaredCapacity wm l j = 0) →
        ws.isJobAvailable l j wm = false) := by
  refine ⟨?_, ?_, ?_⟩
  · intro ops
    refine ledgerWF_run ops _ ⟨List.nodup_nil, fun L J => ?_⟩
    have h0 : WorldState.countWorkers ⟨[]⟩ L J = 0 := rfl
    rw [h0]
    simpa using declaredCapacity_nonneg hcaps L J
  · intro ws a l j hyp
    unfold WorldState.assignJobToAgent
    by_cases hc : ((ws.occupiedJobs.map (·.1)).contains a) = true
    · rw [if_pos hc]
    · rw [if_neg hc]
      rcases hyp with h | h
      · exact absurd h hc
      · rw [if_neg (by simp [h])]
  · intro ws l j hyp
    by_cases hb : ws.isJobAvailable l j wm = true
    · have hlt := isJobAvailable_lt hb
      have hge : (0 : Int) ≤ (ws.countWorkers l j : Int) := by positivity
      rcases hyp with h | h <;> omega
    · simpa using hb

/-- Witness for C4: the invariant after two barista assignments (of which the
second fails: capacity 1) followed by a release, on the Cafe map, plus the two
gate conclusions at a concrete full ledger. -/
theorem ledgerInvariants_witness :
    LedgerWF cafeMap (WorldState.run ⟨[]⟩ cafeMap
      [LedgerOp.assign "adam" "Cafe" "barista",
       LedgerOp.assign "bob" "Cafe" "barista",
       LedgerOp.release "adam"]) ∧
    (WorldState.assignJobToAgent ⟨[("adam", "Cafe", "barista")]⟩ "bob" "Cafe" "barista"
        cafeMap = (false, ⟨[("adam", "Cafe", "barista")]⟩)) ∧
    WorldState.isJobAvailable ⟨[("adam", "Cafe", "barista")]⟩ "Cafe" "barista" cafeMap
      = false := by
  have h := ledgerInvariants cafeMap (by decide)
  refine ⟨h.1 _, ?_, ?_⟩
  · exact h.2.1 _ "bob" "Cafe" "barista" (Or.inr (h.2.2 _ "Cafe" "barista" (Or.inl (by decide))))
  · exact h.2.2 _ "Cafe" "barista" (Or.inl (by decide))

/-! ### Claim C3 : the timeline tick -/

set_option maxHeartbeats 4000000 in
/-- The day count of a year split by the leap rule. -/
theorem daysBeforeYear_succ (y : Nat) (hy : 1 ≤ y) :
    daysBeforeYear (y + 1) = daysBeforeYear y + (if isLeap y then 366 else 365) := by
  have hiff : (isLeap y = true) ↔ (y % 4 = 0 ∧ (y % 100 ≠ 0 ∨ y % 400 = 0)) := by
    simp [isLeap]
  unfold daysBeforeYear
  by_cases hl : isLeap y = true
  · rw [if_pos hl]
    rw [hiff] at hl
    omega
  · rw [if_neg hl]
    rw [hiff] at hl
    push_neg at hl
    omega

/-- A full year's months sum to the year length. -/
theorem daysBeforeMonth_year (y : Nat) :
    daysBeforeMonth y 13 = if isLeap y then 366 else 365 := by
  by_cases hl : isLeap y = true <;> simp [daysBeforeMonth, hl]

/-- The month-table step: one more month adds that month's length. -/
theorem daysBeforeMonth_succ (y m : Nat) (h1 : 1 ≤ m) (h2 : m ≤ 12) :
    daysBeforeMonth y (m + 1) = daysBeforeMonth y m + daysInMonth y m := by
  interval_cases m <;>
    by_cases hl : isLeap y = true <;>
      simp [daysBeforeMonth, daysInMonth, hl]

/-- Adding one minute advances the epoch-minute value by exactly one. -/
theorem epochMinutes_addOneMinute (t : PyDateTime) (hv : t.Valid) :
    epochMinutes (addOneMinute t) = epochMinutes t + 1 := by
  obtain ⟨hy, hm1, hm2, hd1, hd2, hh, hmin⟩ := hv
  unfold addOneMinute epochMinutes
  split_ifs with h1 h2 h3 h4 <;> dsimp only
  · omega
  · omega
  · omega
  · have hsucc := daysBeforeMonth_succ t.year t.month hm1 hm2
    omega
  · have hm12 : t.month = 12 := by omega
    have hd31 : t.day = 31 := by
      have h31 : daysInMonth t.year t.month = 31 := by rw [hm12]; rfl
      omega
    have hy13 : daysBeforeMonth t.year 13 =
        daysBeforeMonth t.year 12 + daysInMonth t.year 12 :=
      daysBeforeMonth_succ t.year 12 (by omega) (by omega)
    have h31 : daysInMonth t.year 12 = 31 := rfl
    have hyear := daysBeforeYear_succ t.year hy
    have hfull := daysBeforeMonth_year t.year
    have hb1 : daysBeforeMonth (t.year + 1) 1 = 0 := rfl
    rw [hm12, hd31]
    omega

/-- Every real month has at least 28 days. -/
theorem daysInMonth_ge (y m : Nat) (h1 : 1 ≤ m) (h2 : m ≤ 12) :
    28 ≤ daysInMonth y m := by
  interval_cases m <;> by_cases hl : isLeap y = true <;> simp [daysInMonth, hl]

/-- Claim C3: for every valid timestamp, one `tick()` advances the time by
exactly one simulated minute and publishes the minute event exactly once with
the new timestamp; it publishes the hour event iff the hour-of-day changed,
the day event iff the calendar day changed, and the season event, carrying the
new season, iff the day changed and the month-to-season mapping differs
between the old and new timestamps; a tick crossing February into March fires
the season event with "Spring" exactly once, and a tick staying within the
month fires it never. -/
theorem tick_spec (t : PyDateTime) (hv : t.Valid) :
    epochMinutes (tick t).1 = epochMinutes t + 1 ∧
    (tick t).2.count (TimeEvent.minutePassed (tick t).1) = 1 ∧
    (∀ u, TimeEvent.minutePassed u ∈ (tick t).2 → u = (tick t).1) ∧
    ((∃ u, TimeEvent.hourPassed u ∈ (tick t).2) ↔ (tick t).1.hour ≠ t.hour) ∧
    ((∃ u, TimeEvent.dayPassed u ∈ (tick t).2) ↔
      ((tick t).1.year, (tick t).1.month, (tick t).1.day) ≠ (t.year, t.month, t.day)) ∧
    (∀ s, TimeEvent.seasonChanged s ∈ (tick t).2 ↔
      ((tick t).1.day ≠ t.day ∧ (tick t).1.season ≠ t.season ∧ s = (tick t).1.season)) ∧
    ((t.month = 2 ∧ (tick t).1.month = 3) →
      (tick t).2.count (TimeEvent.seasonChanged "Spring") = 1) ∧
    ((tick t).1.month = t.month → ∀ s, TimeEvent.seasonChanged s ∉ (tick t).2) := by
  refine ⟨epochMinutes_addOneMinute t hv, ?_⟩
  obtain ⟨hy, hm1, hm2, hd1, hd2, hh, hmin⟩ := hv
  unfold tick addOneMinute
  split_ifs with h1 h2 h3 h4 <;> dsimp only <;> simp only [PyDateTime.season]
  · simp [List.count_cons]
    omega
  · have hne : ¬ t.hour = t.hour + 1 := by omega
    simp [List.count_cons, hne]
    omega
  · have h23 : t.hour = 23 := by omega
    have hne : ¬ t.day = t.day + 1 := by omega
    simp [List.count_cons, hne, h23]
    omega
  · have hday : t.day = daysInMonth t.year t.month := by omega
    have h28 : 28 ≤ daysInMonth t.year t.month := daysInMonth_ge t.year t.month hm1 hm2
    have h23 : t.hour = 23 := by omega
    have hh0 : ¬ t.hour = 0 := by omega
    have hd1ne : ¬ t.day = 1 := by omega
    have hd1ne2 : ¬ (1 : Nat) = t.day := by omega
    have hmne : ¬ t.month = t.month + 1 := by omega
    by_cases hs : seasonForMonth t.month = seasonForMonth (t.month + 1)
    · refine ⟨?_, ?_, ?_, ?_, ?_, ?_, ?_⟩
      · simp [List.count_cons, hh0, hd1ne, hs]
      · intro u hu
        simp [hh0, hd1ne, hs] at hu
        rcases hu with hu | hu | hu <;> simp_all
      · exact ⟨fun _ => by omega, fun _ => ⟨⟨t.year, t.month + 1, 1, 0, 0⟩, by simp [hh0, hd1ne, hs]⟩⟩
      · refine ⟨fun _ => ?_, fun _ => ⟨⟨t.year, t.month + 1, 1, 0, 0⟩, by simp [hh0, hd1ne, hs]⟩⟩
        simp only [ne_eq, Prod.mk.injEq, not_and]
        intro _ hmm
        omega
      · intro s
        simp [hh0, hd1ne, hs]
      · rintro ⟨hfeb, -⟩
        have hsw : seasonForMonth t.month = "Winter" := by rw [hfeb]; rfl
        have hsp : seasonForMonth (t.month + 1) = "Spring" := by rw [hfeb]; rfl
        rw [hsw, hsp] at hs
        exact absurd hs (by decide)
      · intro habs
        omega
    · have hs2 : ¬ seasonForMonth (t.month + 1) = seasonForMonth t.month :=
        fun e => hs e.symm
      refine ⟨?_, ?_, ?_, ?_, ?_, ?_, ?_⟩
      · simp [List.count_cons, hh0, hd1ne, hs]
      · intro u hu
        simp [hh0, hd1ne, hs] at hu
        rcases hu with hu | hu | hu | hu <;> simp_all
      · exact ⟨fun _ => by omega, fun _ => ⟨⟨t.year, t.month + 1, 1, 0, 0⟩, by simp [hh0, hd1ne, hs]⟩⟩
      · refine ⟨fun _ => ?_, fun _ => ⟨⟨t.year, t.month + 1, 1, 0, 0⟩, by simp [hh0, hd1ne, hs]⟩⟩
        simp only [ne_eq, Prod.mk.injEq, not_and]
        intro _ hmm
        omega
      · intro s
        simp [hh0, hd1ne, hs, hs2, hd1ne2]
      · rintro ⟨hfeb, -⟩
        have hsp : seasonForMonth (t.month + 1) = "Spring" := by rw [hfeb]; rfl
        have hsw : seasonForMonth t.month = "Winter" := by rw [hfeb]; rfl
        simp [List.count_cons, hh0, hd1ne, hs, hsp, hsw]
      · intro habs
        omega
  · have hm12 : t.month = 12 := by omega
    have hday : t.day = daysInMonth t.year t.month := by omega
    have h31 : t.day = 31 := by
      have : daysInMonth t.year t.month = 31 := by rw [hm12]; rfl
      omega
    have h23 : t.hour = 23 := by omega
    have hh0 : ¬ t.hour = 0 := by omega
    have hd1ne : ¬ t.day = 1 := by omega
    have hd1ne2 : ¬ (1 : Nat) = t.day := by omega
    have hseq : seasonForMonth t.month = seasonForMonth 1 := by rw [hm12]; rfl
    refine ⟨?_, ?_, ?_, ?_, ?_, ?_, ?_⟩
    · simp [List.count_cons, hh0, hd1ne, hseq]
    · intro u hu
      simp [hh0, hd1ne, hseq] at hu
      rcases hu with hu | hu | hu <;> simp_all
    · exact ⟨fun _ => by omega, fun _ => ⟨⟨t.year + 1, 1, 1, 0, 0⟩, by simp [hh0, hd1ne, hseq]⟩⟩
    · refine ⟨fun _ => ?_, fun _ => ⟨⟨t.year + 1, 1, 1, 0, 0⟩, by simp [hh0, hd1ne, hseq]⟩⟩
      simp only [ne_eq, Prod.mk.injEq, not_and]
      intro _ hmm
      omega
    · intro s
      simp [hh0, hd1ne, hseq]
    · rintro ⟨hfeb, -⟩
      omega
    · intro habs
      omega

/-- Witness for C3: ticking the leap-day instant 2024-02-29 23:59 advances one
epoch minute and fires the season event with "Spring" exactly once. -/
theorem tick_spec_witness :
    epochMinutes (tick ⟨2024, 2, 29, 23, 59⟩).1 = epochMinutes ⟨2024, 2, 29, 23, 59⟩ + 1 ∧
    (tick ⟨2024, 2, 29, 23, 59⟩).2.count (TimeEvent.seasonChanged "Spring") = 1 := by
  have h := tick_spec ⟨2024, 2, 29, 23, 59⟩ (by decide)
  exact ⟨h.1, h.2.2.2.2.2.2.1 (by decide)⟩

/-! ### Claim C2 : memory retrieval -/

/-- The RRI comparator is transitive. -/
theorem rriLe_trans (a b c : LDocument × ℝ)
    (hab : decide (b.2 ≤ a.2) = true) (hbc : decide (c.2 ≤ b.2) = true) :
    decide (c.2 ≤ a.2) = true := by
  simp only [decide_eq_true_eq] at *
  exact le_trans hbc hab

/-- The RRI comparator is total. -/
theorem rriLe_total (a b : LDocument × ℝ) :
    (decide (b.2 ≤ a.2) || decide (a.2 ≤ b.2)) = true := by
  simp only [Bool.or_eq_true, decide_eq_true_eq]
  exact le_total b.2 a.2

/-- Claim C2: with `results` the raw similarity-search output, the retrieval
returns at most `top_k` records; the re-weighted candidate list it reads them
from is sorted by non-increasing combined score, where each candidate's score
is `relevance * (importance / 10) * decay ^ ((now - timestamp)/3600)` (with
the stored metadata values when present); the result is exactly the in-order
conversion of the kept candidates, so a candidate whose metadata fails
conversion is dropped while every other kept candidate still contributes its
record (the retrieval is not aborted). -/
theorem retrieveMemories_spec (decay : ℝ) (results : List (LDocument × ℝ))
    (nowUnix : ℝ) (topK : Nat) :
    (retrieveMemories decay results nowUnix topK).length ≤ topK ∧
    List.Pairwise (fun p q : LDocument × ℝ => q.2 ≤ p.2)
      ((applyRriWeighting decay results nowUnix).take topK) ∧
    (∀ p ∈ applyRriWeighting decay results nowUnix,
      ∃ rel, (p.1, rel) ∈ results ∧ p.2 = rriCombined decay nowUnix p.1 rel) ∧
    (∀ (d : LDocument) (rel : ℝ) (imp : Int) (ts : ℝ),
      d.meta.importance = some imp → d.meta.timestampUnix = some ts →
      rriCombined decay nowUnix d rel =
        rel * ((imp : ℝ) / 10) * Real.rpow decay ((nowUnix - ts) / 3600)) ∧
    (results ≠ [] → retrieveMemories decay results nowUnix topK =
      ((applyRriWeighting decay results nowUnix).take topK).filterMap
        (fun p => fromLangchainDocument p.1)) ∧
    (∀ p ∈ (applyRriWeighting decay results nowUnix).take topK,
      ∀ r, fromLangchainDocument p.1 = some r →
        r ∈ retrieveMemories decay results nowUnix topK) ∧
    (∀ r ∈ retrieveMemories decay results nowUnix topK,
      ∃ p ∈ (applyRriWeighting decay results nowUnix).take topK,
        fromLangchainDocument p.1 = some r) := by
  have hsorted : List.Pairwise (fun p q : LDocument × ℝ => q.2 ≤ p.2)
      (applyRriWeighting decay results nowUnix) := by
    have h := @List.sorted_mergeSort (LDocument × ℝ)
      (fun a b : LDocument × ℝ => decide (b.2 ≤ a.2))
      rriLe_trans rriLe_total
      (results.map (fun p => (p.1, rriCombined decay nowUnix p.1 p.2)))
    exact (h.imp (by simp)).imp (fun h => h)
  have hperm : (applyRriWeighting decay results nowUnix).Perm
      (results.map (fun p => (p.1, rriCombined decay nowUnix p.1 p.2))) :=
    List.mergeSort_perm _ _
  have hform : ∀ p ∈ applyRriWeighting decay results nowUnix,
      ∃ rel, (p.1, rel) ∈ results ∧ p.2 = rriCombined decay nowUnix p.1 rel := by
    intro p hp
    have hmem := hperm.mem_iff.mp hp
    obtain ⟨q, hq, hpq⟩ := List.mem_map.mp hmem
    exact ⟨q.2, by simpa [← hpq] using hq, by rw [← hpq]⟩
  by_cases hres : results = []
  · subst hres
    refine ⟨?_, ?_, hform, ?_, ?_, ?_, ?_⟩
    · simp [retrieveMemories]
    · exact (hsorted.sublist (List.take_sublist _ _))
    · intro d rel imp ts h1 h2
      simp [rriCombined, h1, h2]
    · intro h; exact absurd rfl h
    · intro p hp
      have : applyRriWeighting decay [] nowUnix = [] := by
        simp [applyRriWeighting, List.mergeSort]
      rw [this] at hp
      simp at hp
    · intro r hr
      simp [retrieveMemories] at hr
  · have heq : retrieveMemories decay results nowUnix topK =
        ((applyRriWeighting decay results nowUnix).take topK).filterMap
          (fun p => fromLangchainDocument p.1) := by
      unfold retrieveMemories
      rw [if_neg (by simpa using hres)]
    refine ⟨?_, ?_, hform, ?_, fun _ => heq, ?_, ?_⟩
    · rw [heq]
      exact le_trans (List.length_filterMap_le _ _) (List.length_take_le _ _)
    · exact (hsorted.sublist (List.take_sublist _ _))
    · intro d rel imp ts h1 h2
      simp [rriCombined, h1, h2]
    · intro p hp r hr
      rw [heq]
      exact List.mem_filterMap.mpr ⟨p, hp, hr⟩
    · intro r hr
      rw [heq] at hr
      obtain ⟨p, hp, hpr⟩ := List.mem_filterMap.mp hr
      exact ⟨p, hp, hpr⟩

/-- Witness for C2: the bound instantiated on a concrete empty search result. -/
theorem retrieveMemories_spec_witness :
    (retrieveMemories (99 / 100) [] 0 10).length ≤ 10 :=
  (retrieveMemories_spec (99 / 100) [] 0 10).1

/-! ### Claim C9 : bidirectionality enforcement -/

/-- Counterexample to C9 as stated: loading a table that declares `A→B` with
weight 5 and `B→A` with weight 7 accepts both; after bidirectionality
enforcement the two directions still report different travel times (5 vs 7),
so `get_travel_time(a,b) == get_travel_time(b,a) == t` fails for the accepted
connection `(A, B, 5)`. A self-loop `(C, C, 3)` is also accepted, yet
`get_travel_time(C, C)` reports 0 by the start==end rule, not 3. -/
theorem ensureBidirectional_counterexample :
    acceptedEdge abcMap rawAsym "A" "B" 5 ∧
    (abcMap.loadAndEnsure rawAsym).getTravelTime "A" "B" = some 5 ∧
    (abcMap.loadAndEnsure rawAsym).getTravelTime "B" "A" = some 7 ∧
    ¬ (abcMap.loadAndEnsure rawAsym).getTravelTime "B" "A" = some 5 ∧
    acceptedEdge abcMap rawAsym "C" "C" 3 ∧
    (abcMap.loadAndEnsure rawAsym).getTravelTime "C" "C" = some 0 ∧
    ¬ (abcMap.loadAndEnsure rawAsym).getTravelTime "C" "C" = some 3 := by
  refine ⟨by decide, by rfl, by rfl, by decide, by decide, by rfl, by decide⟩

/-- Lookup after in-place assignment, same key. -/
theorem alookup_aset_self {β : Type} (l : List (String × β)) (k : String) (v : β) :
    alookup (aset l k v) k = some v := by
  induction l with
  | nil => simp [aset, alookup]
  | cons p rest ih =>
    by_cases h : p.1 = k <;> simp [aset, alookup, h, ih]

/-- Lookup after in-place assignment, other key. -/
theorem alookup_aset_ne {β : Type} (l : List (String × β)) (k k2 : String) (v : β)
    (h : k ≠ k2) : alookup (aset l k v) k2 = alookup l k2 := by
  induction l with
  | nil => simp [aset, alookup, h]
  | cons p rest ih =>
    by_cases hp : p.1 = k
    · simp [aset, alookup, hp, h]
    · by_cases hp2 : p.1 = k2 <;> simp [aset, alookup, hp, hp2, ih, Ne.symm h]

/-- Key membership agrees with lookup success. -/
theorem amem_eq_isSome {β : Type} (l : List (String × β)) (k : String) :
    amem l k = (alookup l k).isSome := by
  induction l with
  | nil => simp [amem, alookup]
  | cons p rest ih =>
    by_cases h : p.1 = k <;> simp [amem, alookup, h, ih]

/-- A missing key looks up to nothing. -/
theorem alookup_eq_none_of_not_mem {β : Type} (l : List (String × β)) (k : String)
    (h : k ∉ l.map (·.1)) : alookup l k = none := by
  induction l with
  | nil => rfl
  | cons p rest ih =>
    simp only [List.map_cons, List.mem_cons] at h
    push_neg at h
    simp [alookup, Ne.symm h.1, ih h.2]

/-- With unique keys, membership determines lookup. -/
theorem alookup_of_mem_nodup {β : Type} (l : List (String × β))
    (h : (l.map (·.1)).Nodup) (k : String) (v : β) (hm : (k, v) ∈ l) :
    alookup l k = some v := by
  induction l with
  | nil => simp at hm
  | cons p rest ih =>
    simp only [List.map_cons, List.nodup_cons] at h
    rcases List.mem_cons.mp hm with rfl | hm2
    · simp [alookup]
    · have hk : p.1 ≠ k := by
        intro he
        exact h.1 (he ▸ List.mem_map.mpr ⟨(k, v), hm2, rfl⟩)
      simp [alookup, hk, ih h.2 hm2]

/-- Keys after an assignment come from the old keys or the assigned key. -/
theorem aset_keys_subset {β : Type} (l : List (String × β)) (k : String) (v : β)
    (x : String) (h : x ∈ (aset l k v).map (·.1)) : x ∈ l.map (·.1) ∨ x = k := by
  induction l with
  | nil =>
    simp [aset] at h
    exact Or.inr h
  | cons p rest ih =>
    by_cases hp : p.1 = k
    · simp only [aset, hp, if_pos, List.map_cons, List.mem_cons] at h ⊢
      tauto
    · simp only [aset, hp, if_neg, not_false_iff, List.map_cons, List.mem_cons] at h ⊢
      rcases h with h | h
      · tauto
      · rcases ih h with h2 | h2 <;> tauto

/-- Assignment preserves unique keys. -/
theorem aset_keys_nodup {β : Type} (l : List (String × β)) (k : String) (v : β)
    (h : (l.map (·.1)).Nodup) : ((aset l k v).map (·.1)).Nodup := by
  induction l with
  | nil => simp [aset]
  | cons p rest ih =>
    simp only [List.map_cons, List.nodup_cons] at h
    by_cases hp : p.1 = k
    · simp only [aset, hp, if_pos, List.map_cons, List.nodup_cons]
      exact ⟨hp ▸ h.1, h.2⟩
    · simp only [aset, hp, if_neg, not_false_iff, List.map_cons, List.nodup_cons]
      refine ⟨?_, ih h.2⟩
      intro hmem
      rcases aset_keys_subset rest k v p.1 hmem with h2 | h2
      · exact h.1 h2
      · exact hp h2

/-- `dict.update`: when the update table has unique keys, its bindings win and
the rest fall back to the base table. -/
theorem aupdate_lookup {β : Type} (d2 : List (String × β))
    (hnd : (d2.map (·.1)).Nodup) (d1 : List (String × β)) (k : String) :
    alookup (aupdate d1 d2) k =
      match alookup d2 k with
      | some v => some v
      | none => alookup d1 k := by
  induction d2 generalizing d1 with
  | nil => simp [aupdate, alookup]
  | cons p rest ih =>
    simp only [List.map_cons, List.nodup_cons] at hnd
    have hstep : aupdate d1 (p :: rest) = aupdate (aset d1 p.1 p.2) rest := rfl
    rw [hstep, ih hnd.2]
    by_cases hk : p.1 = k
    · subst hk
      have hnone : alookup rest p.1 = none :=
        alookup_eq_none_of_not_mem rest p.1 hnd.1
      rw [hnone]
      simp [alookup, alookup_aset_self]
    · have : alookup (aset d1 p.1 p.2) k = alookup d1 k := alookup_aset_ne d1 p.1 k p.2 hk
      simp [alookup, hk, this]

/-- Provenance of the loaded connection rows: each comes from a raw row with a
valid source and is its nonempty survivor list. -/
theorem loadConnections_mem (wm : WorldMap) (raw : List (String × List (String × Int))) :
    ∀ q ∈ loadConnections wm raw, wm.isValidLocation q.1 = true ∧ q.2 ≠ [] ∧
      ∃ p ∈ raw, p.1 = q.1 ∧ q.2 = validFilter wm p.2 := by
  have main : ∀ (rs : List (String × List (String × Int)))
      (acc : List (String × List (String × Nat))),
      ∀ q ∈ rs.foldl
        (fun acc p =>
          if wm.isValidLocation p.1 then
            let valid := (p.2.filter
                (fun q => wm.isValidLocation q.1 && decide (0 < q.2))).map
              (fun q => (q.1, q.2.toNat))
            if valid = [] then acc else acc ++ [(p.1, valid)]
          else acc) acc,
      q ∈ acc ∨ (wm.isValidLocation q.1 = true ∧ q.2 ≠ [] ∧
        ∃ p ∈ rs, p.1 = q.1 ∧ q.2 = validFilter wm p.2) := by
    intro rs
    induction rs with
    | nil => exact fun acc q hq => Or.inl hq
    | cons r rest ih =>
      intro acc q hq
      simp only [List.foldl_cons] at hq
      rcases ih _ q hq with hacc | hnew
      · by_cases hv : wm.isValidLocation r.1 = true
        · by_cases hemp : validFilter wm r.2 = []
          · rw [if_pos hv] at hacc
            simp only [validFilter] at hemp
            rw [if_pos hemp] at hacc
            exact Or.inl hacc
          · rw [if_pos hv] at hacc
            simp only [validFilter] at hemp
            rw [if_neg hemp] at hacc
            rcases List.mem_append.mp hacc with h | h
            · exact Or.inl h
            · simp only [List.mem_singleton] at h
              subst h
              exact Or.inr ⟨hv, by simpa [validFilter] using hemp,
                r, List.mem_cons_self _ _, rfl, rfl⟩
        · rw [if_neg hv] at hacc
          exact Or.inl hacc
      · exact Or.inr ⟨hnew.1, hnew.2.1,
          hnew.2.2.choose, List.mem_cons_of_mem _ hnew.2.2.choose_spec.1,
          hnew.2.2.choose_spec.2⟩
  intro q hq
  rcases main raw [] q hq with h | h
  · simp at h
  · exact h

/-- The loaded connection keys form a sublist of the raw keys. -/
theorem loadConnections_keys (wm : WorldMap) (raw : List (String × List (String × Int))) :
    ((loadConnections wm raw).map (·.1)).Sublist (raw.map (·.1)) := by
  have main : ∀ (rs : List (String × List (String × Int)))
      (acc : List (String × List (String × Nat))),
      ∃ l, (rs.foldl
        (fun acc p =>
          if wm.isValidLocation p.1 then
            let valid := (p.2.filter
                (fun q => wm.isValidLocation q.1 && decide (0 < q.2))).map
              (fun q => (q.1, q.2.toNat))
            if valid = [] then acc else acc ++ [(p.1, valid)]
          else acc) acc).map (·.1) = acc.map (·.1) ++ l ∧ l.Sublist (rs.map (·.1)) := by
    intro rs
    induction rs with
    | nil => exact fun acc => ⟨[], by simp⟩
    | cons r rest ih =>
      intro acc
      simp only [List.foldl_cons]
      by_cases hv : wm.isValidLocation r.1 = true
      · by_cases hemp : (r.2.filter
            (fun q => wm.isValidLocation q.1 && decide (0 < q.2))).map
              (fun q => (q.1, q.2.toNat)) = []
        · rw [if_pos hv]
          simp only [hemp, if_pos]
          obtain ⟨l, hl, hsub⟩ := ih acc
          exact ⟨l, hl, hsub.cons _⟩
        · rw [if_pos hv, if_neg hemp]
          obtain ⟨l, hl, hsub⟩ := ih (acc ++ [(r.1, _)])
          refine ⟨r.1 :: l, ?_, hsub.cons₂ _⟩
          rw [hl]
          simp
      · rw [if_neg hv]
        obtain ⟨l, hl, hsub⟩ := ih acc
        exact ⟨l, hl, hsub.cons _⟩
  obtain ⟨l, hl, hsub⟩ := main raw []
  simpa [loadConnections, hl] using hsub

/-- Loaded connection tables have unique keys, unique inner keys, valid
endpoints and positive weights. -/
theorem loadConnections_wf (wm : WorldMap) (raw : List (String × List (String × Int)))
    (hraw : (raw.map (·.1)).Nodup)
    (hinner : ∀ p ∈ raw, (p.2.map (·.1)).Nodup) :
    ((loadConnections wm raw).map (·.1)).Nodup ∧
    (∀ q ∈ loadConnections wm raw, (q.2.map (·.1)).Nodup) ∧
    (∀ q ∈ loadConnections wm raw, wm.isValidLocation q.1 = true ∧
      ∀ e ∈ q.2, wm.isValidLocation e.1 = true ∧ 1 ≤ e.2) := by
  refine ⟨hraw.sublist (loadConnections_keys wm raw), ?_, ?_⟩
  · intro q hq
    obtain ⟨-, -, p, hp, -, hval⟩ := loadConnections_mem wm raw q hq
    rw [hval]
    unfold validFilter
    rw [List.map_map]
    have : ((·.1) ∘ fun q : String × Int => (q.1, q.2.toNat)) = (·.1) := rfl
    rw [this]
    exact (hinner p hp).sublist ((List.filter_sublist _).map _)
  · intro q hq
    obtain ⟨hv, -, p, hp, -, hval⟩ := loadConnections_mem wm raw q hq
    refine ⟨hv, ?_⟩
    intro e he
    rw [hval] at he
    unfold validFilter at he
    obtain ⟨q2, hq2, rfl⟩ := List.mem_map.mp he
    have := List.of_mem_filter hq2
    simp only [Bool.and_eq_true, decide_eq_true_eq] at this
    exact ⟨this.1, by omega⟩

/-- Sources of scanned edges are table keys. -/
theorem edgesOf_src (conns0 : List (String × List (String × Nat)))
    (e : String × String × Nat) (h : e ∈ edgesOf conns0) : e.1 ∈ conns0.map (·.1) := by
  unfold edgesOf at h
  obtain ⟨p, hp, hq⟩ := List.mem_flatMap.mp h
  obtain ⟨q, -, rfl⟩ := List.mem_map.mp hq
  exact List.mem_map.mpr ⟨p, hp, rfl⟩

/-- Scanned edges are exactly the two-level lookups of a well-formed table. -/
theorem edgesOf_mem (conns0 : List (String × List (String × Nat)))
    (hk : (conns0.map (·.1)).Nodup)
    (hin : ∀ q ∈ conns0, (q.2.map (·.1)).Nodup) (a b : String) (t : Nat) :
    (a, b, t) ∈ edgesOf conns0 ↔ lookup2 conns0 a b = some t := by
  constructor
  · intro h
    obtain ⟨p, hp, hq⟩ := List.mem_flatMap.mp h
    obtain ⟨q, hqm, heq⟩ := List.mem_map.mp hq
    obtain ⟨rfl, rfl, rfl⟩ : p.1 = a ∧ q.1 = b ∧ q.2 = t := by
      refine ⟨congrArg (·.1) heq, ?_, ?_⟩
      · exact congrArg (·.2.1) heq
      · exact congrArg (·.2.2) heq
    unfold lookup2
    rw [alookup_of_mem_nodup conns0 hk p.1 p.2 (by simpa using hp)]
    simpa using alookup_of_mem_nodup p.2 (hin p hp) q.1 q.2 (by simpa using hqm)
  · intro h
    unfold lookup2 at h
    cases hds : alookup conns0 a with
    | none => rw [hds] at h; simp at h
    | some ds =>
      rw [hds] at h
      exact List.mem_flatMap.mpr ⟨(a, ds), alookup_mem hds,
        List.mem_map.mpr ⟨(b, t), alookup_mem h, rfl⟩⟩

/-- In a well-formed table, distinct scanned edges have distinct
`(source, target)` pairs. -/
theorem edgesOf_pairwise (conns0 : List (String × List (String × Nat)))
    (hk : (conns0.map (·.1)).Nodup)
    (hin : ∀ q ∈ conns0, (q.2.map (·.1)).Nodup) :
    List.Pairwise (fun e1 e2 : String × String × Nat =>
      ¬(e1.1 = e2.1 ∧ e1.2.1 = e2.2.1)) (edgesOf conns0) := by
  induction conns0 with
  | nil => simp [edgesOf]
  | cons p rest ih =>
    simp only [List.map_cons, List.nodup_cons] at hk
    have hrest := ih hk.2 (fun q hq => hin q (List.mem_cons_of_mem _ hq))
    have hinp := hin p (List.mem_cons_self _ _)
    unfold edgesOf
    simp only [List.flatMap_cons]
    rw [List.pairwise_append]
    refine ⟨?_, hrest, ?_⟩
    · rw [List.pairwise_map]
      refine (List.Pairwise.imp ?_ ((List.pairwise_map).mp hinp))
      intro q1 q2 hne hand
      exact hne hand.2
    · intro e1 h1 e2 h2
      obtain ⟨q, -, rfl⟩ := List.mem_map.mp h1
      intro hand
      have hsrc := edgesOf_src rest e2 h2
      rw [← hand.1] at hsrc
      exact hk.1 hsrc

/-- The nested scan loop of `_ensure_bidirectional_connections` is the fold of
`ensureStep` over the scanned edges. -/
theorem scan_eq_foldl (conns0 : List (String × List (String × Nat)))
    (init : List (String × List (String × Nat)) × List (String × List (String × Nat))) :
    conns0.foldl (fun st p => p.2.foldl (fun st2 q => ensureStep p.1 q.1 q.2 st2) st) init
      = (edgesOf conns0).foldl estep init := by
  induction conns0 generalizing init with
  | nil => rfl
  | cons p rest ih =>
    simp only [List.foldl_cons, edgesOf, List.flatMap_cons, List.foldl_append]
    rw [ih]
    congr 1
    rw [List.foldl_map]
    rfl

/-- Reading the `end_node in table and start_node in table[end_node]` test,
true case. -/
theorem memGetD_true {β : Type} {o : Option (List (String × β))} {x : String}
    (h : (o.map (fun d => amem d x)).getD false = true) :
    ∃ d v, o = some d ∧ alookup d x = some v := by
  cases o with
  | none => simp at h
  | some d =>
    refine ⟨d, ?_⟩
    have hd : amem d x = true := by simpa using h
    rw [amem_eq_isSome] at hd
    obtain ⟨v, hv⟩ := Option.isSome_iff_exists.mp hd
    exact ⟨v, rfl, hv⟩

/-- Reading the `end_node in table and start_node in table[end_node]` test,
false case. -/
theorem memGetD_false {β : Type} {o : Option (List (String × β))} {x : String}
    (h : (o.map (fun d => amem d x)).getD false = false) (d : List (String × β))
    (hd : o = some d) : alookup d x = none := by
  subst hd
  have hd2 : amem d x = false := by simpa using h
  rw [amem_eq_isSome] at hd2
  exact Option.not_isSome_iff_eq_none.mp (by simp [hd2])

/-- `ensureStep` when the reverse edge is neither present nor planned: plan
`y → x` with weight `t`, registering the key `y` where needed. -/
theorem ensureStep_eq_pos (toAdd conns : List (String × List (String × Nat)))
    (x y : String) (t : Nat)
    (hrev : ((alookup conns y).map (fun d => amem d x)).getD false = false)
    (hpla : ((alookup toAdd y).map (fun d => amem d x)).getD false = false) :
    ensureStep x y t (toAdd, conns) =
      (aset (if amem toAdd y then toAdd else aset toAdd y []) y
        (aset ((alookup (if amem toAdd y then toAdd else aset toAdd y []) y).getD [])
          x t),
       if amem conns y then conns else aset conns y []) := by
  unfold ensureStep
  dsimp only
  rw [if_pos (show ¬(((alookup conns y).map (fun d => amem d x)).getD false = true) ∧
      ¬(((alookup toAdd y).map (fun d => amem d x)).getD false = true) from
      ⟨by simp [hrev], by simp [hpla]⟩)]

/-- `ensureStep` when the reverse edge is present or already planned: no
change. -/
theorem ensureStep_eq_neg (toAdd conns : List (String × List (String × Nat)))
    (x y : String) (t : Nat)
    (h : ((alookup conns y).map (fun d => amem d x)).getD false = true ∨
      ((alookup toAdd y).map (fun d => amem d x)).getD false = true) :
    ensureStep x y t (toAdd, conns) = (toAdd, conns) := by
  unfold ensureStep
  dsimp only
  rw [if_neg (show ¬(¬(((alookup conns y).map (fun d => amem d x)).getD false = true) ∧
      ¬(((alookup toAdd y).map (fun d => amem d x)).getD false = true)) from by
      rcases h with h | h <;> simp [h])]

/-- If the live table shows no reverse edge `y → x`, the original table had
none either (the scan only ever adds empty rows to the live table). -/
theorem shape_rev_false (conns0 conns : List (String × List (String × Nat)))
    (hsh : ∀ s, alookup conns s = alookup conns0 s ∨
      (alookup conns0 s = none ∧ alookup conns s = some [])) (x y : String)
    (hrev : ((alookup conns y).map (fun d => amem d x)).getD false = false) :
    lookup2 conns0 y x = none := by
  unfold lookup2
  rcases hsh y with hs | ⟨h0, -⟩
  · cases hy : alookup conns y with
    | none => rw [← hs, hy]; rfl
    | some d =>
      rw [← hs, hy]
      exact memGetD_false hrev d hy
  · rw [h0]; rfl

/-- If the live table shows a reverse edge `y → x`, the original table had
one (the scan only ever adds empty rows to the live table). -/
theorem shape_rev_true (conns0 conns : List (String × List (String × Nat)))
    (hsh : ∀ s, alookup conns s = alookup conns0 s ∨
      (alookup conns0 s = none ∧ alookup conns s = some [])) (x y : String)
    (hrev : ((alookup conns y).map (fun d => amem d x)).getD false = true) :
    lookup2 conns0 y x ≠ none := by
  obtain ⟨d, v, hd, hv⟩ := memGetD_true hrev
  rcases hsh y with hs | ⟨-, hc⟩
  · unfold lookup2
    rw [← hs, hd]
    simp [hv]
  · rw [hd] at hc
    obtain rfl : d = [] := by simpa using hc.symm
    simp [alookup] at hv

/-- One scan step of `_ensure_bidirectional_connections` preserves the scan
invariant, provided the current edge repeats no processed `(source, target)`
pair. -/
theorem ensureStep_inv (conns0 : List (String × List (String × Nat)))
    (processed : List (String × String × Nat))
    (toAdd conns : List (String × List (String × Nat))) (x y : String) (t : Nat)
    (inv : ScanInv conns0 processed toAdd conns)
    (hfresh : ∀ e ∈ processed, ¬(e.1 = x ∧ e.2.1 = y)) :
    ScanInv conns0 (processed ++ [(x, y, t)])
      (ensureStep x y t (toAdd, conns)).1 (ensureStep x y t (toAdd, conns)).2 := by
  by_cases hrev : ((alookup conns y).map (fun d => amem d x)).getD false = true
  · rw [ensureStep_eq_neg toAdd conns x y t (Or.inl hrev)]
    have hl2 : lookup2 conns0 y x ≠ none :=
      shape_rev_true conns0 conns inv.connsShape x y hrev
    refine ⟨inv.connsShape, inv.toAddKeys, ?_, ?_⟩
    · intro y' ds h
      obtain ⟨hnd, hsnd⟩ := inv.toAddSound y' ds h
      exact ⟨hnd, fun x' t' h2 =>
        ⟨List.mem_append_left _ (hsnd x' t' h2).1, (hsnd x' t' h2).2⟩⟩
    · intro e he
      rcases List.mem_append.mp he with he | he
      · exact inv.cover e he
      · simp only [List.mem_singleton] at he
        subst he
        exact Or.inl hl2
  · by_cases hpla : ((alookup toAdd y).map (fun d => amem d x)).getD false = true
    · exfalso
      obtain ⟨d, v, hd, hv⟩ := memGetD_true hpla
      obtain ⟨-, hsnd⟩ := inv.toAddSound y d hd
      exact hfresh (x, y, v) (hsnd x v hv).1 ⟨rfl, rfl⟩
    · have hrevf : ((alookup conns y).map (fun d => amem d x)).getD false = false := by
        simpa using hrev
      have hplaf : ((alookup toAdd y).map (fun d => amem d x)).getD false = false := by
        simpa using hpla
      rw [ensureStep_eq_pos toAdd conns x y t hrevf hplaf]
      have hl2 : lookup2 conns0 y x = none :=
        shape_rev_false conns0 conns inv.connsShape x y hrevf
      set toAdd1 := if amem toAdd y then toAdd else aset toAdd y [] with hta1
      set conns1 := if amem conns y then conns else aset conns y [] with hc1
      have hta1keys : (toAdd1.map (·.1)).Nodup := by
        rw [hta1]
        by_cases hmt : amem toAdd y = true
        · rw [if_pos hmt]; exact inv.toAddKeys
        · rw [if_neg hmt]; exact aset_keys_nodup toAdd y [] inv.toAddKeys
      have hta1ne : ∀ y', y ≠ y' → alookup toAdd1 y' = alookup toAdd y' := by
        intro y' hy'
        rw [hta1]
        by_cases hmt : amem toAdd y = true
        · rw [if_pos hmt]
        · rw [if_neg hmt]; exact alookup_aset_ne toAdd y y' [] hy'
      have H : ∃ ds0, alookup toAdd1 y = some ds0 ∧ (ds0.map (·.1)).Nodup ∧
          (∀ x' t', alookup ds0 x' = some t' →
            (x', y, t') ∈ processed ∧ lookup2 conns0 y x' = none) ∧
          alookup ds0 x = none ∧
          (∀ dsOld, alookup toAdd y = some dsOld → ds0 = dsOld) := by
        rw [hta1]
        by_cases hmt : amem toAdd y = true
        · rw [if_pos hmt]
          rw [amem_eq_isSome] at hmt
          obtain ⟨dsOld, hds⟩ := Option.isSome_iff_exists.mp hmt
          obtain ⟨hnd, hsnd⟩ := inv.toAddSound y dsOld hds
          refine ⟨dsOld, hds, hnd, fun x' t' h2 => hsnd x' t' h2,
            memGetD_false hplaf dsOld hds, ?_⟩
          intro ds2 hds2
          rw [hds] at hds2
          exact Option.some_inj.mp hds2
        · rw [if_neg hmt]
          refine ⟨[], alookup_aset_self toAdd y [], by simp, ?_, rfl, ?_⟩
          · intro x' t' h2; simp [alookup] at h2
          · intro ds2 hds2
            rw [amem_eq_isSome, hds2] at hmt
            simp at hmt
      obtain ⟨ds0, hds0, hds0nd, hds0snd, hds0x, hds0old⟩ := H
      rw [hds0]
      refine ⟨?_, aset_keys_nodup toAdd1 y _ hta1keys, ?_, ?_⟩
      · intro s
        rw [hc1]
        by_cases hmc : amem conns y = true
        · rw [if_pos hmc]; exact inv.connsShape s
        · rw [if_neg hmc]
          by_cases hs : y = s
          · subst hs
            rw [amem_eq_isSome] at hmc
            have hnone : alookup conns y = none := by
              cases hcy : alookup conns y with
              | none => rfl
              | some d => rw [hcy] at hmc; simp at hmc
            refine Or.inr ⟨?_, alookup_aset_self conns y []⟩
            rcases inv.connsShape y with hs2 | ⟨h0, -⟩
            · rw [← hs2, hnone]
            · exact h0
          · rw [alookup_aset_ne conns y s [] hs]; exact inv.connsShape s
      · intro y' ds h
        by_cases hy' : y = y'
        · subst hy'
          rw [alookup_aset_self] at h
          obtain rfl := Option.some_inj.mp h
          constructor
          · simp only [Option.getD_some]
            exact aset_keys_nodup ds0 x t hds0nd
          intro x' t' h2
          by_cases hx' : x = x'
          · subst hx'
            rw [alookup_aset_self] at h2
            obtain rfl := Option.some_inj.mp h2
            exact ⟨List.mem_append_right _ (by simp), hl2⟩
          · rw [alookup_aset_ne _ x x' t hx', Option.getD_some] at h2
            exact ⟨List.mem_append_left _ (hds0snd x' t' h2).1, (hds0snd x' t' h2).2⟩
        · rw [alookup_aset_ne toAdd1 y y' _ hy', hta1ne y' hy'] at h
          obtain ⟨hnd, hsnd⟩ := inv.toAddSound y' ds h
          exact ⟨hnd, fun x' t' h2 =>
            ⟨List.mem_append_left _ (hsnd x' t' h2).1, (hsnd x' t' h2).2⟩⟩
      · intro e he
        rcases List.mem_append.mp he with he | he
        · rcases inv.cover e he with hcv | hcv
          · exact Or.inl hcv
          · right
            by_cases hey : y = e.2.1
            · cases hta : alookup toAdd e.2.1 with
              | none => rw [hta] at hcv; simp at hcv
              | some dsOld =>
                rw [hta] at hcv
                have hde : alookup dsOld e.1 = some e.2.2 := hcv
                obtain rfl := hds0old dsOld (hey ▸ hta)
                have hex : x ≠ e.1 := by
                  intro hxe
                  rw [← hxe] at hde
                  rw [hds0x] at hde
                  exact Option.noConfusion hde
                rw [← hey, alookup_aset_self]
                have : alookup (aset ((some ds0).getD []) x t) e.1
                    = alookup ds0 e.1 := by
                  rw [Option.getD_some]
                  exact alookup_aset_ne ds0 x e.1 t hex
                simp only [Option.some_bind]
                rw [this]
                exact hde
            · rw [alookup_aset_ne toAdd1 y e.2.1 _ hey, hta1ne e.2.1 hey]
              exact hcv
        · simp only [List.mem_singleton] at he
          subst he
          right
          rw [alookup_aset_self]
          simp only [Option.some_bind, Option.getD_some]
          exact alookup_aset_self ds0 x t

/-- The whole scan preserves the invariant over any suffix of pairwise-fresh
edges. -/
theorem scanFold_inv (conns0 : List (String × List (String × Nat)))
    (edges processed : List (String × String × Nat))
    (toAdd conns : List (String × List (String × Nat)))
    (inv : ScanInv conns0 processed toAdd conns)
    (hpw : List.Pairwise (fun e1 e2 : String × String × Nat =>
      ¬(e1.1 = e2.1 ∧ e1.2.1 = e2.2.1)) (processed ++ edges)) :
    ScanInv conns0 (processed ++ edges)
      (edges.foldl estep (toAdd, conns)).1 (edges.foldl estep (toAdd, conns)).2 := by
  induction edges generalizing processed toAdd conns with
  | nil => simpa using inv
  | cons e rest ih =>
    have hfresh : ∀ e' ∈ processed, ¬(e'.1 = e.1 ∧ e'.2.1 = e.2.1) := by
      rw [List.pairwise_append] at hpw
      intro e' he'
      exact hpw.2.2 e' he' e (List.mem_cons_self _ _)
    have step := ensureStep_inv conns0 processed toAdd conns e.1 e.2.1 e.2.2 inv hfresh
    have h2 : (processed ++ [(e.1, e.2.1, e.2.2)]) ++ rest = processed ++ e :: rest := by
      rw [List.append_assoc]; rfl
    have hfold : (e :: rest).foldl estep (toAdd, conns)
        = rest.foldl estep (ensureStep e.1 e.2.1 e.2.2 (toAdd, conns)) := rfl
    rw [hfold, ← h2]
    exact ih (processed ++ [(e.1, e.2.1, e.2.2)]) _ _ step (by rw [h2]; exact hpw)

/-- Lookup through the final merge loop of `_ensure_bidirectional_connections`:
planned rows are `dict.update`d onto the live rows. -/
theorem merge_lookup (toAddF : List (String × List (String × Nat)))
    (hk : (toAddF.map (·.1)).Nodup)
    (connsF : List (String × List (String × Nat))) (s : String) :
    alookup (toAddF.foldl
      (fun acc p => aset acc p.1 (aupdate ((alookup acc p.1).getD []) p.2)) connsF) s =
      match alookup toAddF s with
      | some ds => some (aupdate ((alookup connsF s).getD []) ds)
      | none => alookup connsF s := by
  induction toAddF generalizing connsF with
  | nil => rfl
  | cons p rest ih =>
    simp only [List.map_cons, List.nodup_cons] at hk
    rw [List.foldl_cons, ih hk.2]
    by_cases hs : p.1 = s
    · subst hs
      have h1 : alookup rest p.1 = none := alookup_eq_none_of_not_mem rest p.1 hk.1
      have hself : alookup (p :: rest) p.1 = some p.2 := by simp [alookup]
      rw [h1, hself, alookup_aset_self]
    · have hcons : alookup (p :: rest) s = alookup rest s := by simp [alookup, hs]
      rw [hcons, alookup_aset_ne connsF p.1 s _ hs]

/-- Lookup characterization of `_ensure_bidirectional_connections` on a
well-formed table: there is a scan outcome satisfying the scan invariant whose
planned rows are merged over the live rows. -/
theorem ensureBidirectional_spec (conns0 : List (String × List (String × Nat)))
    (hk : (conns0.map (·.1)).Nodup)
    (hin : ∀ q ∈ conns0, (q.2.map (·.1)).Nodup) :
    ∃ toAddF connsF, ScanInv conns0 (edgesOf conns0) toAddF connsF ∧
      ∀ s, alookup (ensureBidirectional conns0) s =
        match alookup toAddF s with
        | some ds => some (aupdate ((alookup connsF s).getD []) ds)
        | none => alookup connsF s := by
  have hpw := edgesOf_pairwise conns0 hk hin
  have inv0 : ScanInv conns0 [] [] conns0 := by
    refine ⟨fun s => Or.inl rfl, by simp, ?_, ?_⟩
    · intro y ds h; simp [alookup] at h
    · intro e he; simp at he
  have hscan := scanFold_inv conns0 (edgesOf conns0) [] [] conns0 inv0 (by simpa using hpw)
  simp only [List.nil_append] at hscan
  refine ⟨((edgesOf conns0).foldl estep ([], conns0)).1,
    ((edgesOf conns0).foldl estep ([], conns0)).2, hscan, ?_⟩
  intro s
  unfold ensureBidirectional
  dsimp only
  rw [scan_eq_foldl conns0 ([], conns0)]
  exact merge_lookup _ hscan.toAddKeys _ s

/-- `get_travel_time` after the loading pipeline, on distinct valid
endpoints, is the direct-edge lookup in the enforced table. -/
theorem loadAndEnsure_getTravelTime (wm : WorldMap)
    (raw : List (String × List (String × Int))) (u v : String)
    (hu : wm.isValidLocation u = true) (hv : wm.isValidLocation v = true)
    (huv : u ≠ v) :
    (wm.loadAndEnsure raw).getTravelTime u v =
      match alookup (ensureBidirectional (loadConnections wm raw)) u with
      | none => none
      | some dests => alookup dests v := by
  unfold WorldMap.loadAndEnsure WorldMap.getTravelTime WorldMap.isValidLocation
  dsimp only
  rw [if_neg (not_not_intro ⟨hu, hv⟩), if_neg huv]

/-- Claim C9 (amended): for every connection `(a, b, t)` accepted during
loading with `a ≠ b` (raw tables keyed without duplicates, as JSON objects
are), after bidirectionality enforcement `get_travel_time(a, b) = t`, the
reverse direction `get_travel_time(b, a)` always reports some positive time,
and it reports exactly `t` whenever no reverse edge `b → a` was itself
accepted during loading. (The original claim fails: an accepted asymmetric
pair keeps both declared weights, and an accepted self-loop reports `0`.) -/
theorem ensureBidirectional_amended (wm : WorldMap)
    (raw : List (String × List (String × Int)))
    (hraw : (raw.map (·.1)).Nodup)
    (hinner : ∀ p ∈ raw, (p.2.map (·.1)).Nodup)
    (a b : String) (t : Nat) (hacc : acceptedEdge wm raw a b t) (hab : a ≠ b) :
    (wm.loadAndEnsure raw).getTravelTime a b = some t ∧
    (∃ t2, 1 ≤ t2 ∧ (wm.loadAndEnsure raw).getTravelTime b a = some t2) ∧
    (lookup2 (loadConnections wm raw) b a = none →
      (wm.loadAndEnsure raw).getTravelTime b a = some t) := by
  obtain ⟨hk, hin, hval⟩ := loadConnections_wf wm raw hraw hinner
  obtain ⟨toAddF, connsF, hinv, hmerge⟩ :=
    ensureBidirectional_spec (loadConnections wm raw) hk hin
  unfold acceptedEdge at hacc
  have hacc2 := hacc
  unfold lookup2 at hacc2
  cases hA : alookup (loadConnections wm raw) a with
  | none => rw [hA] at hacc2; simp at hacc2
  | some dsA =>
  rw [hA] at hacc2
  simp only [Option.some_bind] at hacc2
  have haA : (a, dsA) ∈ loadConnections wm raw := alookup_mem hA
  have hva : wm.isValidLocation a = true := (hval (a, dsA) haA).1
  have hvbt := (hval (a, dsA) haA).2 (b, t) (alookup_mem hacc2)
  have hvb : wm.isValidLocation b = true := hvbt.1
  have h1 : ∃ dsF, alookup (ensureBidirectional (loadConnections wm raw)) a = some dsF ∧
      alookup dsF b = some t := by
    rw [hmerge a]
    cases hTA : alookup toAddF a with
    | none =>
      rcases hinv.connsShape a with hs | ⟨h0, -⟩
      · refine ⟨dsA, ?_, hacc2⟩
        show alookup connsF a = some dsA
        rw [hs, hA]
      · rw [h0] at hA; exact absurd hA (by simp)
    | some dsAdd =>
      refine ⟨aupdate ((alookup connsF a).getD []) dsAdd, rfl, ?_⟩
      have hnd := (hinv.toAddSound a dsAdd hTA).1
      rw [aupdate_lookup dsAdd hnd]
      cases hvb2 : alookup dsAdd b with
      | some v =>
        exfalso
        have hnone := ((hinv.toAddSound a dsAdd hTA).2 b v hvb2).2
        rw [hacc] at hnone
        exact Option.noConfusion hnone
      | none =>
        rcases hinv.connsShape a with hs | ⟨h0, -⟩
        · show alookup ((alookup connsF a).getD []) b = some t
          rw [hs, hA, Option.getD_some]
          exact hacc2
        · rw [h0] at hA; exact absurd hA (by simp)
  obtain ⟨dsF, hEBa, hdsF⟩ := h1
  have hforward : (wm.loadAndEnsure raw).getTravelTime a b = some t := by
    rw [loadAndEnsure_getTravelTime wm raw a b hva hvb hab, hEBa]
    exact hdsF
  have hmemE : (a, b, t) ∈ edgesOf (loadConnections wm raw) :=
    (edgesOf_mem (loadConnections wm raw) hk hin a b t).mpr hacc
  have hcov := hinv.cover (a, b, t) hmemE
  have h2 : ∃ dsG t2, alookup (ensureBidirectional (loadConnections wm raw)) b = some dsG ∧
      alookup dsG a = some t2 ∧ 1 ≤ t2 ∧
      (lookup2 (loadConnections wm raw) b a = none → t2 = t) := by
    rcases hcov with hL | hR
    · obtain ⟨t2, hBt2⟩ : ∃ t2, lookup2 (loadConnections wm raw) b a = some t2 := by
        cases hx : lookup2 (loadConnections wm raw) b a with
        | none => exact absurd hx hL
        | some v => exact ⟨v, rfl⟩
      have hB2 := hBt2
      unfold lookup2 at hB2
      cases hB : alookup (loadConnections wm raw) b with
      | none => rw [hB] at hB2; simp at hB2
      | some dsB =>
      rw [hB] at hB2
      simp only [Option.some_bind] at hB2
      have h1t2 : 1 ≤ t2 :=
        ((hval (b, dsB) (alookup_mem hB)).2 (a, t2) (alookup_mem hB2)).2
      rw [hmerge b]
      cases hTB : alookup toAddF b with
      | none =>
        rcases hinv.connsShape b with hs | ⟨h0, -⟩
        · refine ⟨dsB, t2, ?_, hB2, h1t2, ?_⟩
          · show alookup connsF b = some dsB
            rw [hs, hB]
          · intro hcontra; rw [hcontra] at hBt2; exact Option.noConfusion hBt2
        · rw [h0] at hB; exact absurd hB (by simp)
      | some dsAdd =>
        refine ⟨aupdate ((alookup connsF b).getD []) dsAdd, t2, rfl, ?_, h1t2, ?_⟩
        · have hnd := (hinv.toAddSound b dsAdd hTB).1
          rw [aupdate_lookup dsAdd hnd]
          cases hva2 : alookup dsAdd a with
          | some v =>
            exfalso
            have hnone := ((hinv.toAddSound b dsAdd hTB).2 a v hva2).2
            rw [hBt2] at hnone
            exact Option.noConfusion hnone
          | none =>
            rcases hinv.connsShape b with hs | ⟨h0, -⟩
            · show alookup ((alookup connsF b).getD []) a = some t2
              rw [hs, hB, Option.getD_some]
              exact hB2
            · rw [h0] at hB; exact absurd hB (by simp)
        · intro hcontra; rw [hcontra] at hBt2; exact Option.noConfusion hBt2
    · cases hTB : alookup toAddF b with
      | none => rw [hTB] at hR; simp at hR
      | some dsAdd =>
        rw [hTB] at hR
        simp only [Option.some_bind] at hR
        rw [hmerge b, hTB]
        refine ⟨aupdate ((alookup connsF b).getD []) dsAdd, t, rfl, ?_, hvbt.2, fun _ => rfl⟩
        have hnd := (hinv.toAddSound b dsAdd hTB).1
        rw [aupdate_lookup dsAdd hnd, hR]
  obtain ⟨dsG, t2, hEBb, hdsG, h1t2, ht2t⟩ := h2
  have hreverse : (wm.loadAndEnsure raw).getTravelTime b a = some t2 := by
    rw [loadAndEnsure_getTravelTime wm raw b a hvb hva (fun h => hab h.symm), hEBb]
    exact hdsG
  refine ⟨hforward, ⟨t2, h1t2, hreverse⟩, ?_⟩
  intro hnone
  rw [hreverse, ht2t hnone]

/-- Witness for the amended claim C9 theorem: on the three-location map with
the single accepted edge `A → B` of weight `5`, the forward direction reports
`5`, the reverse direction reports a positive time, and (no reverse edge
having been accepted) it reports exactly `5`. -/
theorem ensureBidirectional_amended_witness :
    acceptedEdge abcMap [("A", [("B", (5 : Int))])] "A" "B" 5 ∧
    ((abcMap.loadAndEnsure [("A", [("B", 5)])]).getTravelTime "A" "B" = some 5 ∧
     (∃ t2, 1 ≤ t2 ∧
       (abcMap.loadAndEnsure [("A", [("B", 5)])]).getTravelTime "B" "A" = some t2) ∧
     (lookup2 (loadConnections abcMap [("A", [("B", 5)])]) "B" "A" = none →
       (abcMap.loadAndEnsure [("A", [("B", 5)])]).getTravelTime "B" "A" = some 5)) :=
  ⟨by decide,
   ensureBidirectional_amended abcMap [("A", [("B", 5)])] (by decide) (by decide)
     "A" "B" 5 (by decide) (by decide)⟩

/-! ### Dijkstra (claim C1): heap lemmas -/

/-- `amem` decides key membership. -/
theorem amem_keys {β : Type} (l : List (String × β)) (k : String) :
    amem l k = true ↔ k ∈ l.map (·.1) := by
  induction l with
  | nil => simp [amem]
  | cons p rest ih =>
    by_cases h : p.1 = k
    · simp [amem, h]
    · simp [amem, h, ih, Ne.symm h]

/-- A true heap comparison bounds the first components. -/
theorem pqLeB_true_le {a b : Nat × String} (h : pqLeB a b = true) : a.1 ≤ b.1 := by
  unfold pqLeB at h
  split_ifs at h with h1 h2 <;> omega

/-- A false heap comparison bounds the first components the other way. -/
theorem pqLeB_false_le {a b : Nat × String} (h : pqLeB a b = false) : b.1 ≤ a.1 := by
  unfold pqLeB at h
  split_ifs at h with h1 h2
  · omega
  · omega

/-- The folded minimum is no larger than the seed and every listed entry. -/
theorem pqMinOf_le (e : Nat × String) (l : List (Nat × String)) :
    (pqMinOf e l).1 ≤ e.1 ∧ ∀ x ∈ l, (pqMinOf e l).1 ≤ x.1 := by
  induction l generalizing e with
  | nil => exact ⟨le_refl _, by simp⟩
  | cons x l ih =>
    have hseed : (if pqLeB e x then e else x).1 ≤ e.1 ∧
        (if pqLeB e x then e else x).1 ≤ x.1 := by
      by_cases h : pqLeB e x = true
      · rw [if_pos h]; exact ⟨le_refl _, pqLeB_true_le h⟩
      · rw [if_neg h]
        exact ⟨pqLeB_false_le (by simpa using h), le_refl _⟩
    have ih2 := ih (if pqLeB e x then e else x)
    refine ⟨le_trans ih2.1 hseed.1, ?_⟩
    intro y hy
    rcases List.mem_cons.mp hy with rfl | hy
    · exact le_trans ih2.1 hseed.2
    · exact ih2.2 y hy

/-- The folded minimum is one of the candidates. -/
theorem pqMinOf_mem (e : Nat × String) (l : List (Nat × String)) :
    pqMinOf e l ∈ e :: l := by
  induction l generalizing e with
  | nil => exact List.mem_cons_self _ _
  | cons x l ih =>
    have ih2 := ih (if pqLeB e x then e else x)
    have hstep : pqMinOf e (x :: l) = pqMinOf (if pqLeB e x then e else x) l := rfl
    rw [hstep]
    rcases List.mem_cons.mp ih2 with heq | hm
    · rw [heq]
      by_cases h : pqLeB e x = true
      · rw [if_pos h]; exact List.mem_cons_self _ _
      · rw [if_neg h]; exact List.mem_cons_of_mem _ (List.mem_cons_self _ _)
    · exact List.mem_cons_of_mem _ (List.mem_cons_of_mem _ hm)

/-- `heappop` on the empty heap only. -/
theorem popMin_eq_none (pq : List (Nat × String)) : popMin pq = none ↔ pq = [] := by
  cases pq <;> simp [popMin]

/-- `heappop` returns a member of minimal distance and erases it. -/
theorem popMin_sound (pq : List (Nat × String)) (m : Nat × String)
    (rest : List (Nat × String)) (h : popMin pq = some (m, rest)) :
    m ∈ pq ∧ rest = pq.erase m ∧ ∀ e ∈ pq, m.1 ≤ e.1 := by
  cases pq with
  | nil => exact absurd h (by simp [popMin])
  | cons e l =>
    unfold popMin at h
    simp only [Option.some_inj, Prod.mk.injEq] at h
    obtain ⟨rfl, rfl⟩ := h
    refine ⟨pqMinOf_mem e l, rfl, ?_⟩
    intro x hx
    rcases List.mem_cons.mp hx with rfl | hx
    · exact (pqMinOf_le x l).1
    · exact (pqMinOf_le e l).2 x hx

/-! ### Dijkstra (claim C1): sum bookkeeping -/

/-- Summing a mapped list where one listed element jumps by `c` and none
decrease. -/
theorem map_sum_jump {α : Type} (l : List α) (f g : α → Nat) (x : α) (c : Nat)
    (hx : x ∈ l) (hmono : ∀ z ∈ l, f z ≤ g z) (hjump : f x + c ≤ g x) :
    (l.map f).sum + c ≤ (l.map g).sum := by
  induction l with
  | nil => simp at hx
  | cons a t ih =>
    simp only [List.map_cons, List.sum_cons]
    rcases List.mem_cons.mp hx with rfl | hx2
    · have hrest := List.sum_le_sum (fun z hz => hmono z (List.mem_cons_of_mem _ hz))
      omega
    · have hfa := hmono a (List.mem_cons_self _ _)
      have hrec := ih hx2 (fun z hz => hmono z (List.mem_cons_of_mem _ hz))
      omega

/-- `sumAssigned` grows when distances become assigned. -/
theorem sumAssigned_mono (wm : WorldMap) (dist1 dist2 : String → Option Nat)
    (h : ∀ z, dist1 z ≠ none → dist2 z ≠ none) :
    sumAssigned wm dist1 ≤ sumAssigned wm dist2 := by
  unfold sumAssigned
  refine List.sum_le_sum ?_
  intro p hp
  refine List.sum_le_sum ?_
  intro q hq
  by_cases h1 : dist1 q.1 = none
  · simp [h1]
  · rw [if_neg h1, if_neg (h q.1 h1)]

/-- `sumAssigned` grows by at least the weight of a declared edge whose target
becomes newly assigned. -/
theorem sumAssigned_jump (wm : WorldMap) (dist1 dist2 : String → Option Nat)
    (u : String) (nbrs : List (String × Nat)) (q : String × Nat)
    (hu : (u, nbrs) ∈ wm.connections) (hq : q ∈ nbrs)
    (h1 : dist1 q.1 = none) (h2 : dist2 q.1 ≠ none)
    (hmono : ∀ z, dist1 z ≠ none → dist2 z ≠ none) :
    sumAssigned wm dist1 + q.2 ≤ sumAssigned wm dist2 := by
  unfold sumAssigned
  refine map_sum_jump wm.connections _ _ (u, nbrs) q.2 hu ?_ ?_
  · intro p hp
    refine List.sum_le_sum ?_
    intro z hz
    by_cases hz1 : dist1 z.1 = none
    · simp [hz1]
    · rw [if_neg hz1, if_neg (hmono z.1 hz1)]
  · refine map_sum_jump nbrs _ _ q q.2 hq ?_ ?_
    · intro z hz
      by_cases hz1 : dist1 z.1 = none
      · simp [hz1]
      · rw [if_neg hz1, if_neg (hmono z.1 hz1)]
    · rw [if_pos h1, if_neg h2]
      omega

/-- Assigned-edge weight never exceeds the total declared weight. -/
theorem sumAssigned_le_totalWeight (wm : WorldMap) (dist : String → Option Nat) :
    sumAssigned wm dist ≤ totalWeight wm := by
  unfold sumAssigned totalWeight
  refine List.sum_le_sum ?_
  intro p hp
  refine List.sum_le_sum ?_
  intro q hq
  by_cases h1 : dist q.1 = none <;> simp [h1]

/-- Lowering (or newly assigning) one node's distance strictly lowers the rank
sum when the new value undercuts the old rank. -/
theorem rankSum_update (wm : WorldMap) (dist : String → Option Nat) (v : String)
    (nd : Nat) (hv : v ∈ locNames wm)
    (hlt : nd + 1 ≤ rank (totalWeight wm) (dist v)) :
    rankSum wm (fun x => if x = v then some nd else dist x) + 1 ≤ rankSum wm dist := by
  unfold rankSum
  refine map_sum_jump (locNames wm) _ _ v 1 hv ?_ ?_
  · intro z hz
    dsimp only
    by_cases hzv : z = v
    · subst hzv
      rw [if_pos rfl]
      show nd ≤ rank (totalWeight wm) (dist z)
      omega
    · rw [if_neg hzv]
  · dsimp only
    rw [if_pos rfl]
    show nd + 1 ≤ rank (totalWeight wm) (dist v)
    exact hlt

/-- The rank sum is at most `#locations * (totalWeight + 1)` when every
assigned distance is bounded by the total weight. -/
theorem rankSum_le (wm : WorldMap) (dist : String → Option Nat)
    (hb : ∀ v dv, dist v = some dv → dv ≤ totalWeight wm) :
    rankSum wm dist ≤ (locNames wm).length * (totalWeight wm + 1) := by
  unfold rankSum
  have h := List.sum_le_card_nsmul
    ((locNames wm).map (fun v => rank (totalWeight wm) (dist v)))
    (totalWeight wm + 1) ?_
  · simpa using h
  · intro x hx
    obtain ⟨v, hv, rfl⟩ := List.mem_map.mp hx
    cases hd : dist v with
    | none => simp [rank]
    | some d =>
      have := hb v d hd
      simp only [rank]
      omega

/-! ### Dijkstra (claim C1): relaxation lemmas -/

/-- A relaxation against an unassigned neighbor always updates. -/
theorem relaxStep_of_none (u : String) (d : Nat) (s : DijState) (vw : String × Nat)
    (h : s.dist vw.1 = none) :
    relaxStep u d s vw =
      { dist := fun x => if x = vw.1 then some (d + vw.2) else s.dist x,
        prev := fun x => if x = vw.1 then some u else s.prev x,
        pq := s.pq ++ [(d + vw.2, vw.1)] } := by
  simp [relaxStep, h]

/-- A strictly improving relaxation updates. -/
theorem relaxStep_of_lt (u : String) (d : Nat) (s : DijState) (vw : String × Nat)
    (dv : Nat) (h : s.dist vw.1 = some dv) (hlt : d + vw.2 < dv) :
    relaxStep u d s vw =
      { dist := fun x => if x = vw.1 then some (d + vw.2) else s.dist x,
        prev := fun x => if x = vw.1 then some u else s.prev x,
        pq := s.pq ++ [(d + vw.2, vw.1)] } := by
  simp [relaxStep, h, hlt]

/-- A non-improving relaxation is a no-op. -/
theorem relaxStep_of_ge (u : String) (d : Nat) (s : DijState) (vw : String × Nat)
    (dv : Nat) (h : s.dist vw.1 = some dv) (hge : ¬ d + vw.2 < dv) :
    relaxStep u d s vw = s := by
  simp [relaxStep, h, hge]

/-- One relaxation never raises an assigned distance. -/
theorem relaxStep_dist_le (u : String) (d : Nat) (s : DijState) (vw : String × Nat)
    (v : String) (dv : Nat) (h : s.dist v = some dv) :
    ∃ dv', (relaxStep u d s vw).dist v = some dv' ∧ dv' ≤ dv := by
  cases hd : s.dist vw.1 with
  | none =>
    rw [relaxStep_of_none u d s vw hd]
    by_cases hv : v = vw.1
    · rw [hv] at h; rw [h] at hd; exact absurd hd (by simp)
    · exact ⟨dv, by simpa [hv] using h, le_refl _⟩
  | some dv0 =>
    by_cases hlt : d + vw.2 < dv0
    · rw [relaxStep_of_lt u d s vw dv0 hd hlt]
      by_cases hv : v = vw.1
      · subst hv
        rw [h] at hd
        obtain rfl := Option.some_inj.mp hd
        exact ⟨d + vw.2, by simp, le_of_lt hlt⟩
      · exact ⟨dv, by simpa [hv] using h, le_refl _⟩
    · rw [relaxStep_of_ge u d s vw dv0 hd hlt]
      exact ⟨dv, h, le_refl _⟩

/-- A whole relaxation pass never raises an assigned distance. -/
theorem relaxAll_dist_le (u : String) (d : Nat) (nbrs : List (String × Nat))
    (s : DijState) (v : String) (dv : Nat) (h : s.dist v = some dv) :
    ∃ dv', (relaxAll u d nbrs s).dist v = some dv' ∧ dv' ≤ dv := by
  induction nbrs generalizing s dv with
  | nil => exact ⟨dv, h, le_refl _⟩
  | cons q t ih =>
    obtain ⟨dv1, h1, hle1⟩ := relaxStep_dist_le u d s q v dv h
    obtain ⟨dv', h', hle'⟩ := ih (relaxStep u d s q) dv1 h1
    exact ⟨dv', h', le_trans hle' hle1⟩

/-- Closedness of a node survives lowering of distances. -/
theorem closedAt_mono (wm : WorldMap) (dist dist' : String → Option Nat)
    (v : String) (dv : Nat)
    (hmono : ∀ z dz, dist z = some dz → ∃ dz', dist' z = some dz' ∧ dz' ≤ dz)
    (h : closedAt wm dist v dv) : closedAt wm dist' v dv := by
  intro q hq
  obtain ⟨dz, hdz, hle⟩ := h q hq
  obtain ⟨dz', hdz', hle'⟩ := hmono q.1 dz hdz
  exact ⟨dz', hdz', le_trans hle' hle⟩

/-- An updating relaxation step (new or strictly better distance) preserves
the mid-relaxation invariant and does not increase the termination measure. -/
theorem relaxStep_update_inv (wm : WorldMap) (startName endName u : String)
    (d : Nat) (s : DijState) (q : String × Nat)
    (hinv : RInv wm startName endName u d s)
    (hqn : q.1 ∈ locNames wm) (hedge : edgeWeight wm u q.1 = some q.2)
    (hdecl : ∃ nbrs0, (u, nbrs0) ∈ wm.connections ∧ q ∈ nbrs0)
    (hup : s.dist q.1 = none ∨ ∃ dv, s.dist q.1 = some dv ∧ d + q.2 < dv) :
    RInv wm startName endName u d
      { dist := fun x => if x = q.1 then some (d + q.2) else s.dist x,
        prev := fun x => if x = q.1 then some u else s.prev x,
        pq := s.pq ++ [(d + q.2, q.1)] } ∧
    dmeasure wm
      { dist := fun x => if x = q.1 then some (d + q.2) else s.dist x,
        prev := fun x => if x = q.1 then some u else s.prev x,
        pq := s.pq ++ [(d + q.2, q.1)] } ≤ dmeasure wm s := by
  have hqu : q.1 ≠ u := by
    intro h
    rw [h, hinv.distU] at hup
    rcases hup with h1 | ⟨dv, h1, h2⟩
    · exact Option.noConfusion h1
    · obtain rfl := Option.some_inj.mp h1
      omega
  have hqs : q.1 ≠ startName := by
    intro h
    rw [h, hinv.distStart] at hup
    rcases hup with h1 | ⟨dv, h1, h2⟩
    · exact Option.noConfusion h1
    · obtain rfl := Option.some_inj.mp h1
      omega
  have hmono : ∀ z dz, s.dist z = some dz →
      ∃ dz', (if z = q.1 then some (d + q.2) else s.dist z) = some dz' ∧ dz' ≤ dz := by
    intro z dz hz
    by_cases hzq : z = q.1
    · subst hzq
      rw [if_pos rfl]
      rcases hup with h1 | ⟨dv, h1, h2⟩
      · rw [hz] at h1; exact Option.noConfusion h1
      · rw [hz] at h1
        obtain rfl := Option.some_inj.mp h1
        exact ⟨d + q.2, rfl, by omega⟩
    · rw [if_neg hzq]; exact ⟨dz, hz, le_refl _⟩
  have hmono_n : ∀ z, s.dist z ≠ none →
      (if z = q.1 then some (d + q.2) else s.dist z) ≠ none := by
    intro z hz
    by_cases hzq : z = q.1
    · rw [if_pos hzq]; simp
    · rw [if_neg hzq]; exact hz
  have hsa : sumAssigned wm s.dist ≤
      sumAssigned wm (fun x => if x = q.1 then some (d + q.2) else s.dist x) :=
    sumAssigned_mono wm _ _ hmono_n
  have hbound : ∀ v dv2, (if v = q.1 then some (d + q.2) else s.dist v) = some dv2 →
      dv2 ≤ sumAssigned wm (fun x => if x = q.1 then some (d + q.2) else s.dist x) := by
    intro v dv2 hv
    by_cases hvq : v = q.1
    · rw [if_pos hvq] at hv
      obtain rfl := Option.some_inj.mp hv
      rcases hup with h1 | ⟨dv, h1, h2⟩
      · obtain ⟨nbrs0, hconn, hqmem⟩ := hdecl
        have hd_le := hinv.distBound u d hinv.distU
        have hjump := sumAssigned_jump wm s.dist
          (fun x => if x = q.1 then some (d + q.2) else s.dist x) u nbrs0 q
          hconn hqmem h1 (by dsimp only; rw [if_pos rfl]; simp) hmono_n
        omega
      · have := hinv.distBound q.1 dv h1
        omega
    · rw [if_neg hvq] at hv
      have := hinv.distBound v dv2 hv
      omega
  refine ⟨⟨?_, ?_, ?_, ?_, ?_, ?_, ?_, ?_, ?_, ?_⟩, ?_⟩
  · dsimp only
    rw [if_neg (Ne.symm hqu)]
    exact hinv.distU
  · dsimp only
    rw [if_neg (Ne.symm hqs)]
    exact hinv.distStart
  · intro e he
    dsimp only at he ⊢
    rcases List.mem_append.mp he with he | he
    · obtain ⟨dx, hdx, hle⟩ := hinv.pqDist e he
      obtain ⟨dx', hdx', hle'⟩ := hmono e.2 dx hdx
      exact ⟨dx', hdx', le_trans hle' hle⟩
    · simp only [List.mem_singleton] at he
      subst he
      exact ⟨d + q.2, by rw [if_pos rfl], le_refl _⟩
  · intro e he
    dsimp only at he
    rcases List.mem_append.mp he with he | he
    · exact hinv.pqNodes e he
    · simp only [List.mem_singleton] at he
      subst he
      exact hqn
  · intro v hv
    dsimp only at hv
    by_cases hvq : v = q.1
    · subst hvq; exact hqn
    · rw [if_neg hvq] at hv
      exact hinv.distNodes v hv
  · intro v dv2 hv hvu
    dsimp only at hv ⊢
    by_cases hvq : v = q.1
    · subst hvq
      rw [if_pos rfl] at hv
      obtain rfl := Option.some_inj.mp hv
      exact Or.inl (List.mem_append_right _ (by simp))
    · rw [if_neg hvq] at hv
      rcases hinv.openClosedNe v dv2 hv hvu with hm | hcl
      · exact Or.inl (List.mem_append_left _ hm)
      · exact Or.inr (closedAt_mono wm s.dist _ v dv2 hmono hcl)
  · intro de hde
    dsimp only at hde ⊢
    by_cases heq : endName = q.1
    · subst heq
      rw [if_pos rfl] at hde
      obtain rfl := Option.some_inj.mp hde
      exact List.mem_append_right _ (by simp)
    · rw [if_neg heq] at hde
      exact List.mem_append_left _ (hinv.endOpen de hde)
  · intro v dv2 hv
    dsimp only at hv ⊢
    exact hbound v dv2 hv
  · intro v u2 hv
    dsimp only at hv ⊢
    by_cases hvq : v = q.1
    · subst hvq
      rw [if_pos rfl] at hv
      obtain rfl := Option.some_inj.mp hv
      refine ⟨d + q.2, d, q.2, by rw [if_pos rfl], ?_, hedge, le_refl _⟩
      rw [if_neg (Ne.symm hqu)]
      exact hinv.distU
    · rw [if_neg hvq] at hv
      obtain ⟨dv, dw, w, h1, h2, h3, h4⟩ := hinv.prevSound v u2 hv
      by_cases hu2q : u2 = q.1
      · subst hu2q
        rcases hup with hn | ⟨dv0, h1', h2'⟩
        · rw [h2] at hn; exact Option.noConfusion hn
        · rw [h2] at h1'
          obtain rfl := Option.some_inj.mp h1'
          refine ⟨dv, d + q.2, w, by rw [if_neg hvq]; exact h1, by rw [if_pos rfl], h3, ?_⟩
          omega
      · exact ⟨dv, dw, w, by rw [if_neg hvq]; exact h1,
          by rw [if_neg hu2q]; exact h2, h3, h4⟩
  · intro v hv hp
    dsimp only at hv hp
    by_cases hvq : v = q.1
    · rw [if_pos hvq] at hp
      exact Option.noConfusion hp
    · rw [if_neg hvq] at hv
      rw [if_neg hvq] at hp
      exact hinv.prevStart v hv hp
  · have hrank : d + q.2 + 1 ≤ rank (totalWeight wm) (s.dist q.1) := by
      rcases hup with h1 | ⟨dv, h1, h2⟩
      · rw [h1]
        have h3 := hbound q.1 (d + q.2) (by rw [if_pos rfl])
        have h4 := sumAssigned_le_totalWeight wm
          (fun x => if x = q.1 then some (d + q.2) else s.dist x)
        show d + q.2 + 1 ≤ totalWeight wm + 1
        omega
      · rw [h1]
        show d + q.2 + 1 ≤ dv
        omega
    have hupd := rankSum_update wm s.dist q.1 (d + q.2) hqn hrank
    unfold dmeasure
    dsimp only
    rw [List.length_append]
    simp only [List.length_singleton]
    omega

/-- One relaxation step preserves the mid-relaxation invariant, closes the
relaxed edge, and does not increase the termination measure. -/
theorem relaxStep_inv (wm : WorldMap) (startName endName u : String) (d : Nat)
    (s : DijState) (q : String × Nat)
    (hinv : RInv wm startName endName u d s)
    (hqn : q.1 ∈ locNames wm) (hedge : edgeWeight wm u q.1 = some q.2)
    (hdecl : ∃ nbrs0, (u, nbrs0) ∈ wm.connections ∧ q ∈ nbrs0) :
    RInv wm startName endName u d (relaxStep u d s q) ∧
    (∃ dz, (relaxStep u d s q).dist q.1 = some dz ∧ dz ≤ d + q.2) ∧
    dmeasure wm (relaxStep u d s q) ≤ dmeasure wm s := by
  cases hd : s.dist q.1 with
  | none =>
    obtain ⟨hri, hm⟩ := relaxStep_update_inv wm startName endName u d s q hinv hqn
      hedge hdecl (Or.inl hd)
    rw [relaxStep_of_none u d s q hd]
    refine ⟨hri, ⟨d + q.2, ?_, le_refl _⟩, hm⟩
    dsimp only
    rw [if_pos rfl]
  | some dv =>
    by_cases hlt : d + q.2 < dv
    · obtain ⟨hri, hm⟩ := relaxStep_update_inv wm startName endName u d s q hinv hqn
        hedge hdecl (Or.inr ⟨dv, hd, hlt⟩)
      rw [relaxStep_of_lt u d s q dv hd hlt]
      refine ⟨hri, ⟨d + q.2, ?_, le_refl _⟩, hm⟩
      dsimp only
      rw [if_pos rfl]
    · rw [relaxStep_of_ge u d s q dv hd hlt]
      exact ⟨hinv, ⟨dv, hd, by omega⟩, le_refl _⟩

/-- The whole relaxation pass preserves the mid-relaxation invariant, closes
every relaxed edge, and does not increase the termination measure. -/
theorem relaxAll_inv (wm : WorldMap) (startName endName u : String) (d : Nat)
    (nbrs : List (String × Nat)) (s : DijState)
    (hinv : RInv wm startName endName u d s)
    (hqs : ∀ q ∈ nbrs, q.1 ∈ locNames wm ∧ edgeWeight wm u q.1 = some q.2 ∧
      ∃ nbrs0, (u, nbrs0) ∈ wm.connections ∧ q ∈ nbrs0) :
    RInv wm startName endName u d (relaxAll u d nbrs s) ∧
    (∀ q ∈ nbrs, ∃ dz, (relaxAll u d nbrs s).dist q.1 = some dz ∧ dz ≤ d + q.2) ∧
    dmeasure wm (relaxAll u d nbrs s) ≤ dmeasure wm s := by
  induction nbrs generalizing s hinv with
  | nil => exact ⟨hinv, by simp, le_refl _⟩
  | cons q t ih =>
    obtain ⟨hq1, hq2, hq3⟩ := hqs q (List.mem_cons_self _ _)
    obtain ⟨hri, hcl, hm⟩ := relaxStep_inv wm startName endName u d s q hinv hq1 hq2 hq3
    have hstep : relaxAll u d (q :: t) s = relaxAll u d t (relaxStep u d s q) := rfl
    rw [hstep]
    obtain ⟨hri', hcl', hm'⟩ := ih (relaxStep u d s q) hri
      (fun z hz => hqs z (List.mem_cons_of_mem _ hz))
    refine ⟨hri', ?_, le_trans hm' hm⟩
    intro z hz
    rcases List.mem_cons.mp hz with rfl | hz2
    · obtain ⟨dz, hdz, hle⟩ := hcl
      obtain ⟨dz', hdz', hle'⟩ := relaxAll_dist_le u d t (relaxStep u d s z) z.1 dz hdz
      exact ⟨dz', hdz', le_trans hle' hle⟩
    · exact hcl' z hz2

/-- A declared edge is listed in the source's adjacency. -/
theorem edge_mem_adj (wm : WorldMap) (a b : String) (w : Nat)
    (h : edgeWeight wm a b = some w) : (b, w) ∈ adjList wm a := by
  unfold edgeWeight at h
  unfold adjList
  cases hc : alookup wm.connections a with
  | none => rw [hc] at h; simp at h
  | some ds =>
    rw [hc] at h
    simp only [Option.some_bind] at h
    exact alookup_mem h

/-- A stale pop (`continue`) preserves the loop invariant and strictly
decreases the measure. -/
theorem stale_inv (wm : WorldMap) (startName endName : String) (s : DijState)
    (hinv : DijInv wm startName endName s) (d : Nat) (u : String)
    (pq2 : List (Nat × String)) (hpop : popMin s.pq = some ((d, u), pq2))
    (du : Nat) (hdu : s.dist u = some du) (hlt : du < d) :
    DijInv wm startName endName { s with pq := pq2 } ∧
    dmeasure wm { s with pq := pq2 } + 1 = dmeasure wm s := by
  obtain ⟨hmem, hrest, -⟩ := popMin_sound s.pq (d, u) pq2 hpop
  have hsub : ∀ e ∈ pq2, e ∈ s.pq := by
    intro e he
    rw [hrest] at he
    exact List.mem_of_mem_erase he
  have hkeep : ∀ (v : String) (dv : Nat), s.dist v = some dv → (dv, v) ∈ s.pq →
      (dv, v) ∈ pq2 := by
    intro v dv hdv hm
    rw [hrest]
    refine (List.mem_erase_of_ne ?_).mpr hm
    intro hcontra
    obtain ⟨h1, h2⟩ := Prod.mk.injEq .. ▸ hcontra
    subst h2
    rw [hdv] at hdu
    obtain rfl := Option.some_inj.mp hdu
    omega
  refine ⟨⟨hinv.distStart, ?_, ?_, hinv.distNodes, ?_, ?_, hinv.distBound,
    hinv.prevSound, hinv.prevStart⟩, ?_⟩
  · intro e he; exact hinv.pqDist e (hsub e he)
  · intro e he; exact hinv.pqNodes e (hsub e he)
  · intro v dv hdv
    rcases hinv.openClosed v dv hdv with hm | hcl
    · exact Or.inl (hkeep v dv hdv hm)
    · exact Or.inr hcl
  · intro de hde
    exact hkeep endName de hde (hinv.endOpen de hde)
  · unfold dmeasure
    dsimp only
    rw [hrest, List.length_erase_of_mem hmem]
    have : 1 ≤ s.pq.length :=
      List.length_pos.mpr (fun hnil => by rw [hnil] at hmem; simp at hmem)
    omega

/-- A non-stale pop of a node other than the target yields the mid-relaxation
invariant on the remaining heap, pins the popped distance, and decreases the
measure by one. -/
theorem pop_nonstale_rinv (wm : WorldMap) (startName endName : String)
    (s : DijState) (hinv : DijInv wm startName endName s) (d : Nat) (u : String)
    (pq2 : List (Nat × String)) (hpop : popMin s.pq = some ((d, u), pq2))
    (hns : ∀ du, s.dist u = some du → ¬ du < d) (hne : endName ≠ u) :
    s.dist u = some d ∧ RInv wm startName endName u d { s with pq := pq2 } ∧
    dmeasure wm { s with pq := pq2 } + 1 = dmeasure wm s := by
  obtain ⟨hmem, hrest, -⟩ := popMin_sound s.pq (d, u) pq2 hpop
  obtain ⟨dx, hdx, hdxle⟩ := hinv.pqDist (d, u) hmem
  have hdu : s.dist u = some d := by
    have := hns dx hdx
    have : dx = d := by omega
    rw [← this]
    exact hdx
  have hsub : ∀ e ∈ pq2, e ∈ s.pq := by
    intro e he
    rw [hrest] at he
    exact List.mem_of_mem_erase he
  have hkeep : ∀ (v : String), v ≠ u → ∀ dv : Nat, (dv, v) ∈ s.pq → (dv, v) ∈ pq2 := by
    intro v hvne dv hm
    rw [hrest]
    refine (List.mem_erase_of_ne ?_).mpr hm
    intro hcontra
    exact hvne (congrArg (·.2) hcontra)
  refine ⟨hdu, ⟨hdu, hinv.distStart, ?_, ?_, hinv.distNodes, ?_, ?_, hinv.distBound,
    hinv.prevSound, hinv.prevStart⟩, ?_⟩
  · intro e he; exact hinv.pqDist e (hsub e he)
  · intro e he; exact hinv.pqNodes e (hsub e he)
  · intro v dv hdv hvne
    rcases hinv.openClosed v dv hdv with hm | hcl
    · exact Or.inl (hkeep v hvne dv hm)
    · exact Or.inr hcl
  · intro de hde
    exact hkeep endName hne de (hinv.endOpen de hde)
  · unfold dmeasure
    dsimp only
    rw [hrest, List.length_erase_of_mem hmem]
    have : 1 ≤ s.pq.length :=
      List.length_pos.mpr (fun hnil => by rw [hnil] at hmem; simp at hmem)
    omega

/-- The mid-relaxation invariant plus closedness of the popped node restores
the full loop invariant. -/
theorem rinv_to_dijinv (wm : WorldMap) (startName endName u : String) (d : Nat)
    (s : DijState) (hinv : RInv wm startName endName u d s)
    (hclu : closedAt wm s.dist u d) : DijInv wm startName endName s := by
  refine ⟨hinv.distStart, hinv.pqDist, hinv.pqNodes, hinv.distNodes, ?_,
    hinv.endOpen, hinv.distBound, hinv.prevSound, hinv.prevStart⟩
  intro v dv hdv
  by_cases hvu : v = u
  · subst hvu
    rw [hinv.distU] at hdv
    obtain rfl := Option.some_inj.mp hdv
    exact Or.inr hclu
  · exact hinv.openClosedNe v dv hdv hvu

/-- If every assigned node is fully relaxed and the target is unassigned, the
target is unreachable. -/
theorem unreachable_of_closed (wm : WorldMap) (startName endName : String)
    (dist : String → Option Nat) (hstart : dist startName = some 0)
    (hclosed : ∀ v dv, dist v = some dv → closedAt wm dist v dv)
    (hend : dist endName = none) : ¬ Reachable wm startName endName := by
  rintro ⟨k, hchain⟩
  have aux : ∀ a b k2, Chain wm a b k2 → dist a ≠ none → dist b ≠ none := by
    intro a b k2 hc
    induction hc with
    | refl a2 => exact id
    | cons hedge hc2 ih =>
      rename_i a2 b2 c2 w2 k3
      intro ha
      cases hda : dist a2 with
      | none => exact absurd hda ha
      | some da =>
        obtain ⟨db, hdb, -⟩ :=
          hclosed a2 da hda (b2, w2) (edge_mem_adj wm a2 b2 w2 hedge)
        exact ih (by rw [hdb]; simp)
  have := aux startName endName k hchain (by rw [hstart]; simp)
  exact this hend

/-- Under the loop invariant, a popped minimum bounds every chain weight from
the start to the target from below. -/
theorem popped_min (wm : WorldMap) (startName endName : String) (s : DijState)
    (hinv : DijInv wm startName endName s) (d : Nat)
    (hmin : ∀ e ∈ s.pq, d ≤ e.1) (k : Nat)
    (hchain : Chain wm startName endName k) : d ≤ k := by
  by_contra hk
  push_neg at hk
  have aux : ∀ a z k2, Chain wm a z k2 → ∀ da, s.dist a = some da →
      closedAt wm s.dist a da → da + k2 < d →
      ∃ dz, s.dist z = some dz ∧ dz ≤ da + k2 ∧ closedAt wm s.dist z dz := by
    intro a z k2 hc
    induction hc with
    | refl a2 =>
      intro da hda hcl hlt
      exact ⟨da, hda, by omega, hcl⟩
    | cons hedge hc2 ih =>
      rename_i a2 b2 c2 w2 k3
      intro da hda hcl hlt
      obtain ⟨db, hdb, hdble⟩ := hcl (b2, w2) (edge_mem_adj wm a2 b2 w2 hedge)
      dsimp only at hdb hdble
      have hclb : closedAt wm s.dist b2 db := by
        rcases hinv.openClosed b2 db hdb with hm | hcl2
        · exfalso
          have := hmin (db, b2) hm
          dsimp only at this
          omega
        · exact hcl2
      obtain ⟨dz, hdz, hle, hclz⟩ := ih db hdb hclb (by omega)
      exact ⟨dz, hdz, by omega, hclz⟩
  have hcls : closedAt wm s.dist startName 0 := by
    rcases hinv.openClosed startName 0 hinv.distStart with hm | hcl
    · exfalso
      have := hmin _ hm
      dsimp only at this
      omega
    · exact hcl
  obtain ⟨dz, hdz, hle, -⟩ := aux startName endName k hchain 0 hinv.distStart hcls
    (by omega)
  have := hmin _ (hinv.endOpen dz hdz)
  dsimp only at this
  omega

/-- Evaluation of `listCost` on a two-or-more element list. -/
theorem listCost_cons_cons (wm : WorldMap) (a b : String) (rest : List String) :
    listCost wm (a :: b :: rest) =
      match edgeWeight wm a b with
      | none => none
      | some w => (listCost wm (b :: rest)).map (w + ·) := rfl

/-- Evaluation of `listCost` on a singleton. -/
theorem listCost_single (wm : WorldMap) (a : String) : listCost wm [a] = some 0 := rfl

/-- Well-formed maps declare only positive weights. -/
theorem edgeWeight_pos (wm : WorldMap) (hwf : MapWF wm) (a b : String) (w : Nat)
    (h : edgeWeight wm a b = some w) : 1 ≤ w := by
  unfold edgeWeight at h
  cases hc : alookup wm.connections a with
  | none => rw [hc] at h; simp at h
  | some ds =>
    rw [hc] at h
    simp only [Option.some_bind] at h
    exact hwf.2.2.2.2 (a, ds) (alookup_mem hc) (b, w) (alookup_mem h)

/-- Appending one more declared edge to a costed sequence. -/
theorem listCost_snoc (wm : WorldMap) (l : List String) (c : Nat) (u v : String)
    (w : Nat) (hc : listCost wm l = some c) (hlast : l.getLast? = some u)
    (hedge : edgeWeight wm u v = some w) :
    listCost wm (l ++ [v]) = some (c + w) := by
  induction l generalizing c with
  | nil => simp [listCost] at hc
  | cons a t ih =>
    cases t with
    | nil =>
      obtain rfl : a = u := by simpa using hlast
      obtain rfl : (0 : Nat) = c := by simpa [listCost_single] using hc
      simp [listCost_cons_cons, listCost_single, hedge]
    | cons b t2 =>
      rw [listCost_cons_cons] at hc
      cases he : edgeWeight wm a b with
      | none => rw [he] at hc; simp at hc
      | some w1 =>
        rw [he] at hc
        cases hc1 : listCost wm (b :: t2) with
        | none => rw [hc1] at hc; simp at hc
        | some c1 =>
          rw [hc1] at hc
          simp only [Option.map_some'] at hc
          obtain rfl := Option.some_inj.mp hc
          have hlast2 : (b :: t2).getLast? = some u := by
            rw [← hlast]; simp
          have hrec := ih c1 hc1 hlast2
          show listCost wm (a :: ((b :: t2) ++ [v])) = some (w1 + c1 + w)
          rw [List.cons_append] at hrec ⊢
          rw [listCost_cons_cons, he, hrec]
          simp [Nat.add_assoc]

/-- A costed sequence is a chain between its endpoints. -/
theorem listCost_chain (wm : WorldMap) (b : String) (l : List String) :
    ∀ (c : Nat) (a : String), listCost wm l = some c → l.head? = some a →
      l.getLast? = some b → Chain wm a b c := by
  induction l with
  | nil => intro c a hc hh hl; simp at hh
  | cons x t ih =>
    intro c a hc hh hl
    obtain rfl : x = a := by simpa using hh
    cases t with
    | nil =>
      obtain rfl : x = b := by simpa using hl
      obtain rfl : (0 : Nat) = c := by simpa [listCost_single] using hc
      exact Chain.refl x
    | cons y t2 =>
      rw [listCost_cons_cons] at hc
      cases he : edgeWeight wm x y with
      | none => rw [he] at hc; simp at hc
      | some w =>
        rw [he] at hc
        cases hc1 : listCost wm (y :: t2) with
        | none => rw [hc1] at hc; simp at hc
        | some c1 =>
          rw [hc1] at hc
          simp only [Option.map_some'] at hc
          obtain rfl := Option.some_inj.mp hc
          have hl2 : (y :: t2).getLast? = some b := by
            rw [← hl]; simp
          exact Chain.cons he (ih c1 y hc1 (by simp) hl2)

/-- Chasing the predecessor table from an assigned node yields, once reversed,
a start-to-node sequence whose cost is at most the recorded distance. -/
theorem buildPath_sound (wm : WorldMap) (hwf : MapWF wm) (startName : String)
    (prev : String → Option String) (dist : String → Option Nat)
    (hstart : dist startName = some 0)
    (hps : ∀ v u2, prev v = some u2 → ∃ dv dw w, dist v = some dv ∧
      dist u2 = some dw ∧ edgeWeight wm u2 v = some w ∧ dw + w ≤ dv)
    (hpn : ∀ v, dist v ≠ none → prev v = none → v = startName) :
    ∀ dv v fuel, dist v = some dv → dv < fuel →
      ∃ c, c ≤ dv ∧ listCost wm (buildPath prev v fuel).reverse = some c ∧
        (buildPath prev v fuel).reverse.head? = some startName ∧
        (buildPath prev v fuel).reverse.getLast? = some v := by
  intro dv
  induction dv using Nat.strong_induction_on with
  | _ dv ih =>
    intro v fuel hdv hfuel
    cases fuel with
    | zero => omega
    | succ f =>
      cases hp : prev v with
      | none =>
        have hv : v = startName := hpn v (by rw [hdv]; simp) hp
        have hbp : buildPath prev v (f + 1) = [v] := by
          unfold buildPath
          rw [hp]
        rw [hbp]
        subst hv
        exact ⟨0, by omega, rfl, rfl, rfl⟩
      | some p =>
        obtain ⟨dv', dw, w, hdv', hdw, hedge, hle⟩ := hps v p hp
        rw [hdv] at hdv'
        obtain rfl := Option.some_inj.mp hdv'
        have hw := edgeWeight_pos wm hwf p v w hedge
        have hdwlt : dw < dv := by omega
        have hbp : buildPath prev v (f + 1) = v :: buildPath prev p f := by
          show (match prev v with
            | none => [v]
            | some p2 => v :: buildPath prev p2 f) = v :: buildPath prev p f
          rw [hp]
        rw [hbp]
        obtain ⟨c, hcle, hcost, hhead, hlast⟩ := ih dw hdwlt p f hdw (by omega)
        rw [List.reverse_cons]
        refine ⟨c + w, by omega, ?_, ?_, ?_⟩
        · exact listCost_snoc wm _ c p v w hcost hlast hedge
        · obtain ⟨t, ht⟩ : ∃ t, (buildPath prev p f).reverse = startName :: t := by
            cases hLr : (buildPath prev p f).reverse with
            | nil => rw [hLr] at hhead; simp at hhead
            | cons x t =>
              rw [hLr] at hhead
              obtain rfl : x = startName := by simpa using hhead
              exact ⟨t, rfl⟩
          rw [ht]
          rfl
        · exact List.getLast?_concat _

/-- One unfolding of the Dijkstra loop. -/
theorem dijkstraLoop_succ (wm : WorldMap) (endName : String) (s : DijState) (f : Nat) :
    dijkstraLoop wm endName s (f + 1) =
      match popMin s.pq with
      | none => some none
      | some (du, pq2) =>
        let d := du.1
        let u := du.2
        let stale := match s.dist u with
          | none => false
          | some dv => decide (dv < d)
        if stale then dijkstraLoop wm endName { s with pq := pq2 } f
        else if u = endName then
          match s.dist endName with
          | none => some none
          | some dv => some (some ((buildPath s.prev endName (dv + 1)).reverse, dv))
        else
          match alookup wm.connections u with
          | none => dijkstraLoop wm endName { s with pq := pq2 } f
          | some nbrs =>
            dijkstraLoop wm endName (relaxAll u d nbrs { s with pq := pq2 }) f := rfl

/-- The loop publishes "no path" on an empty heap. -/
theorem dijkstraLoop_empty (wm : WorldMap) (endName : String) (s : DijState)
    (f : Nat) (hpop : popMin s.pq = none) :
    dijkstraLoop wm endName s (f + 1) = some none := by
  rw [dijkstraLoop_succ, hpop]

/-- The loop skips a stale heap entry. -/
theorem dijkstraLoop_stale (wm : WorldMap) (endName : String) (s : DijState)
    (f d : Nat) (u : String) (pq2 : List (Nat × String)) (dv : Nat)
    (hpop : popMin s.pq = some ((d, u), pq2)) (hdist : s.dist u = some dv)
    (hlt : dv < d) :
    dijkstraLoop wm endName s (f + 1) =
      dijkstraLoop wm endName { s with pq := pq2 } f := by
  rw [dijkstraLoop_succ, hpop]
  dsimp only
  rw [hdist]
  simp [hlt]

/-- The loop returns the reconstructed path when the target pops non-stale. -/
theorem dijkstraLoop_end (wm : WorldMap) (endName : String) (s : DijState)
    (f d : Nat) (pq2 : List (Nat × String)) (dv : Nat)
    (hpop : popMin s.pq = some ((d, endName), pq2))
    (hdist : s.dist endName = some dv) (hge : ¬ dv < d) :
    dijkstraLoop wm endName s (f + 1) =
      some (some ((buildPath s.prev endName (dv + 1)).reverse, dv)) := by
  rw [dijkstraLoop_succ, hpop]
  dsimp only
  rw [hdist]
  simp [hge]

/-- The loop skips a non-stale node without outgoing connections. -/
theorem dijkstraLoop_noadj (wm : WorldMap) (endName : String) (s : DijState)
    (f d : Nat) (u : String) (pq2 : List (Nat × String)) (dv : Nat)
    (hpop : popMin s.pq = some ((d, u), pq2)) (hdist : s.dist u = some dv)
    (hge : ¬ dv < d) (hne : u ≠ endName) (hadj : alookup wm.connections u = none) :
    dijkstraLoop wm endName s (f + 1) =
      dijkstraLoop wm endName { s with pq := pq2 } f := by
  rw [dijkstraLoop_succ, hpop]
  dsimp only
  rw [hdist, hadj]
  simp [hge, hne]

/-- The loop relaxes the adjacency of a non-stale, non-target node. -/
theorem dijkstraLoop_relax (wm : WorldMap) (endName : String) (s : DijState)
    (f d : Nat) (u : String) (pq2 : List (Nat × String)) (dv : Nat)
    (nbrs : List (String × Nat))
    (hpop : popMin s.pq = some ((d, u), pq2)) (hdist : s.dist u = some dv)
    (hge : ¬ dv < d) (hne : u ≠ endName)
    (hadj : alookup wm.connections u = some nbrs) :
    dijkstraLoop wm endName s (f + 1) =
      dijkstraLoop wm endName (relaxAll u d nbrs { s with pq := pq2 }) f := by
  rw [dijkstraLoop_succ, hpop]
  dsimp only
  rw [hdist, hadj]
  simp [hge, hne]

/-- Adjacency rows of a well-formed map give valid, positively weighted,
declared edges. -/
theorem adj_edge_props (wm : WorldMap) (hwf : MapWF wm) (u : String)
    (nbrs : List (String × Nat)) (hadj : alookup wm.connections u = some nbrs) :
    ∀ q ∈ nbrs, q.1 ∈ locNames wm ∧ edgeWeight wm u q.1 = some q.2 ∧
      ∃ nbrs0, (u, nbrs0) ∈ wm.connections ∧ q ∈ nbrs0 := by
  intro q hq
  have hmem : (u, nbrs) ∈ wm.connections := alookup_mem hadj
  refine ⟨(hwf.2.2.2.1 (u, nbrs) hmem).2 q hq, ?_, nbrs, hmem, hq⟩
  unfold edgeWeight
  rw [hadj]
  simp only [Option.some_bind]
  exact alookup_of_mem_nodup nbrs (hwf.2.2.1 (u, nbrs) hmem) q.1 q.2 hq

/-- Soundness of the Dijkstra loop: with enough fuel it never runs out, a
"no path" result implies unreachability, and a returned path starts at the
start, ends at the target, costs exactly its reported cost, and that cost is
minimal among all chains. -/
theorem dijkstraLoop_sound (wm : WorldMap) (startName endName : String)
    (hwf : MapWF wm) :
    ∀ fuel s, DijInv wm startName endName s → dmeasure wm s < fuel →
      (dijkstraLoop wm endName s fuel ≠ none) ∧
      (dijkstraLoop wm endName s fuel = some none →
        ¬ Reachable wm startName endName) ∧
      (∀ p c, dijkstraLoop wm endName s fuel = some (some (p, c)) →
        listCost wm p = some c ∧ p.head? = some startName ∧
        p.getLast? = some endName ∧ ∀ k, Chain wm startName endName k → c ≤ k) := by
  intro fuel
  induction fuel with
  | zero => intro s hinv hm; omega
  | succ f ih =>
    intro s hinv hm
    cases hpop : popMin s.pq with
    | none =>
      have hres := dijkstraLoop_empty wm endName s f hpop
      have hempty : s.pq = [] := (popMin_eq_none s.pq).mp hpop
      have hclosed : ∀ v dv, s.dist v = some dv → closedAt wm s.dist v dv := by
        intro v dv hdv
        rcases hinv.openClosed v dv hdv with hm2 | hcl
        · rw [hempty] at hm2; simp at hm2
        · exact hcl
      have hendn : s.dist endName = none := by
        cases hde : s.dist endName with
        | none => rfl
        | some de =>
          have := hinv.endOpen de hde
          rw [hempty] at this
          simp at this
      refine ⟨by rw [hres]; simp, ?_, ?_⟩
      · intro _
        exact unreachable_of_closed wm startName endName s.dist hinv.distStart
          hclosed hendn
      · intro p c hsome
        rw [hres] at hsome
        simp at hsome
    | some dup =>
      obtain ⟨⟨d, u⟩, pq2⟩ := dup
      obtain ⟨hmem, -, hmin⟩ := popMin_sound s.pq (d, u) pq2 hpop
      obtain ⟨dx, hdx, hdxle⟩ := hinv.pqDist (d, u) hmem
      dsimp only at hdx hdxle
      by_cases hlt : dx < d
      · have hres := dijkstraLoop_stale wm endName s f d u pq2 dx hpop hdx hlt
        obtain ⟨hinv', hm'⟩ := stale_inv wm startName endName s hinv d u pq2 hpop
          dx hdx hlt
        rw [hres]
        exact ih _ hinv' (by omega)
      · have hdeq : d = dx := by omega
        subst hdeq
        by_cases hu : u = endName
        · rw [hu] at hpop hdx
          have hres := dijkstraLoop_end wm endName s f d pq2 d hpop hdx hlt
          refine ⟨by rw [hres]; simp, ?_, ?_⟩
          · intro hsome
            rw [hres] at hsome
            simp at hsome
          · intro p c hsome
            rw [hres] at hsome
            simp only [Option.some_inj] at hsome
            obtain ⟨rfl, rfl⟩ : (buildPath s.prev endName (d + 1)).reverse = p ∧ d = c := by
              exact Prod.mk.injEq .. ▸ hsome
            obtain ⟨c0, hc0le, hcost, hhead, hlast⟩ := buildPath_sound wm hwf startName
              s.prev s.dist hinv.distStart hinv.prevSound hinv.prevStart d endName
              (d + 1) hdx (by omega)
            have hminchain : ∀ k, Chain wm startName endName k → d ≤ k :=
              popped_min wm startName endName s hinv d hmin
            have hc0chain : Chain wm startName endName c0 :=
              listCost_chain wm endName _ c0 startName hcost hhead hlast
            have hc0d : c0 = d := by
              have := hminchain c0 hc0chain
              omega
            rw [hc0d] at hcost
            exact ⟨hcost, hhead, hlast, fun k hk => hminchain k hk⟩
        · obtain ⟨hdu, hrinv, hm'⟩ := pop_nonstale_rinv wm startName endName s hinv
            d u pq2 hpop
            (fun du2 hdu2 => by
              rw [hdx] at hdu2
              obtain rfl := Option.some_inj.mp hdu2
              omega)
            (fun h => hu h.symm)
          cases hadj : alookup wm.connections u with
          | none =>
            have hres := dijkstraLoop_noadj wm endName s f d u pq2 d hpop hdx
              (by omega) hu hadj
            have hclu : closedAt wm ({ s with pq := pq2 } : DijState).dist u d := by
              intro z hz
              unfold adjList at hz
              rw [hadj] at hz
              simp at hz
            have hinv' := rinv_to_dijinv wm startName endName u d _ hrinv hclu
            rw [hres]
            exact ih _ hinv' (by omega)
          | some nbrs =>
            have hres := dijkstraLoop_relax wm endName s f d u pq2 d nbrs hpop hdx
              (by omega) hu hadj
            have hprops := adj_edge_props wm hwf u nbrs hadj
            obtain ⟨hrinv', hcl', hm2⟩ := relaxAll_inv wm startName endName u d nbrs
              { s with pq := pq2 } hrinv hprops
            have hadjeq : adjList wm u = nbrs := by
              unfold adjList
              rw [hadj]
              rfl
            have hclu : closedAt wm (relaxAll u d nbrs { s with pq := pq2 }).dist u d := by
              intro z hz
              rw [hadjeq] at hz
              exact hcl' z hz
            have hinv' := rinv_to_dijinv wm startName endName u d _ hrinv' hclu
            rw [hres]
            exact ih _ hinv' (by omega)

/-- The initial Dijkstra state satisfies the loop invariant, and the chosen
fuel strictly dominates its measure. -/
theorem dijkstra_init (wm : WorldMap) (startName endName : String)
    (hs : startName ∈ locNames wm) (hne : startName ≠ endName) :
    DijInv wm startName endName
      { dist := fun v => if v = startName then some 0 else none,
        prev := fun _ => none,
        pq := [(0, startName)] } ∧
    dmeasure wm
      { dist := fun v => if v = startName then some 0 else none,
        prev := fun _ => none,
        pq := [(0, startName)] } < dijkstraFuel wm := by
  constructor
  · refine ⟨?_, ?_, ?_, ?_, ?_, ?_, ?_, ?_, ?_⟩
    · dsimp only
      rw [if_pos rfl]
    · intro e he
      dsimp only at he ⊢
      simp only [List.mem_singleton] at he
      subst he
      exact ⟨0, by rw [if_pos rfl], le_refl _⟩
    · intro e he
      dsimp only at he
      simp only [List.mem_singleton] at he
      subst he
      exact hs
    · intro v hv
      dsimp only at hv
      by_cases hvs : v = startName
      · subst hvs; exact hs
      · rw [if_neg hvs] at hv
        exact absurd rfl hv
    · intro v dv hdv
      dsimp only at hdv ⊢
      by_cases hvs : v = startName
      · subst hvs
        rw [if_pos rfl] at hdv
        obtain rfl := Option.some_inj.mp hdv
        exact Or.inl (by simp)
      · rw [if_neg hvs] at hdv
        exact absurd hdv (by simp)
    · intro de hde
      dsimp only at hde
      rw [if_neg (fun h => hne h.symm)] at hde
      exact absurd hde (by simp)
    · intro v dv hdv
      dsimp only at hdv
      by_cases hvs : v = startName
      · subst hvs
        rw [if_pos rfl] at hdv
        obtain rfl := Option.some_inj.mp hdv
        omega
      · rw [if_neg hvs] at hdv
        exact absurd hdv (by simp)
    · intro v u2 hv
      dsimp only at hv
      exact absurd hv (by simp)
    · intro v hv hp
      dsimp only at hv
      by_cases hvs : v = startName
      · exact hvs
      · rw [if_neg hvs] at hv
        exact absurd rfl hv
  · have hball : ∀ v dv,
        (fun v => if v = startName then some 0 else (none : Option Nat)) v = some dv →
        dv ≤ totalWeight wm := by
      intro v dv hdv
      dsimp only at hdv
      by_cases hvs : v = startName
      · rw [if_pos hvs] at hdv
        obtain rfl := Option.some_inj.mp hdv
        omega
      · rw [if_neg hvs] at hdv
        exact absurd hdv (by simp)
    have hb := rankSum_le wm _ hball
    unfold dmeasure dijkstraFuel
    dsimp only
    simp only [List.length_singleton]
    omega

/-- Claim C1: on a well-formed map with both endpoints loaded, `find_path`
returns `([start], 0)` when the endpoints coincide; otherwise it returns
`None` exactly when the target is unreachable, and on success it returns a
declared-edge path from start to target whose reported cost is the sum of its
edge weights and is minimal among all declared-edge walks. -/
theorem findPath_spec (wm : WorldMap) (startName endName : String)
    (hwf : MapWF wm) (hs : startName ∈ locNames wm) (he : endName ∈ locNames wm) :
    (startName = endName → wm.findPath startName endName = some ([startName], 0)) ∧
    (startName ≠ endName → ¬ Reachable wm startName endName →
      wm.findPath startName endName = none) ∧
    (startName ≠ endName → Reachable wm startName endName →
      ∃ p c, wm.findPath startName endName = some (p, c) ∧
        listCost wm p = some c ∧ p.head? = some startName ∧
        p.getLast? = some endName ∧
        ∀ k, Chain wm startName endName k → c ≤ k) := by
  have hvs : wm.isValidLocation startName = true := (amem_keys wm.locations startName).mpr hs
  have hve : wm.isValidLocation endName = true := (amem_keys wm.locations endName).mpr he
  refine ⟨?_, ?_, ?_⟩
  · intro heq
    unfold WorldMap.findPath
    rw [if_neg (not_not_intro ⟨hvs, hve⟩), if_pos heq]
  · intro hne hunreach
    obtain ⟨hinit, hmeas⟩ := dijkstra_init wm startName endName hs hne
    obtain ⟨hnn, hnone, hsucc⟩ := dijkstraLoop_sound wm startName endName hwf
      (dijkstraFuel wm) _ hinit hmeas
    unfold WorldMap.findPath
    rw [if_neg (not_not_intro ⟨hvs, hve⟩), if_neg hne]
    dsimp only
    cases hres : dijkstraLoop wm endName
        { dist := fun v => if v = startName then some 0 else none,
          prev := fun _ => none,
          pq := [(0, startName)] } (dijkstraFuel wm) with
    | none => exact absurd hres hnn
    | some r =>
      cases r with
      | none => rfl
      | some pc =>
        obtain ⟨p, c⟩ := pc
        obtain ⟨hcost, hhead, hlast, -⟩ := hsucc p c hres
        exact absurd ⟨c, listCost_chain wm endName p c startName hcost hhead hlast⟩
          hunreach
  · intro hne hreach
    obtain ⟨hinit, hmeas⟩ := dijkstra_init wm startName endName hs hne
    obtain ⟨hnn, hnone, hsucc⟩ := dijkstraLoop_sound wm startName endName hwf
      (dijkstraFuel wm) _ hinit hmeas
    unfold WorldMap.findPath
    rw [if_neg (not_not_intro ⟨hvs, hve⟩), if_neg hne]
    dsimp only
    cases hres : dijkstraLoop wm endName
        { dist := fun v => if v = startName then some 0 else none,
          prev := fun _ => none,
          pq := [(0, startName)] } (dijkstraFuel wm) with
    | none => exact absurd hres hnn
    | some r =>
      cases r with
      | none => exact absurd hreach (hnone hres)
      | some pc =>
        obtain ⟨p, c⟩ := pc
        obtain ⟨hcost, hhead, hlast, hminim⟩ := hsucc p c hres
        exact ⟨p, c, rfl, hcost, hhead, hlast, hminim⟩

/-- Witness for claim C1 on a concrete three-node map (`A→B→C` of cost 3
beats the direct `A→C` of cost 5): the hypotheses hold by computation and the
theorem's three branches apply to `find_path("A", "C")`. -/
theorem findPath_spec_witness :
    MapWF dijMap ∧ "A" ∈ locNames dijMap ∧ "C" ∈ locNames dijMap ∧
    ((("A" : String) = "C" → dijMap.findPath "A" "C" = some (["A"], 0)) ∧
     (("A" : String) ≠ "C" → ¬ Reachable dijMap "A" "C" →
       dijMap.findPath "A" "C" = none) ∧
     (("A" : String) ≠ "C" → Reachable dijMap "A" "C" →
       ∃ p c, dijMap.findPath "A" "C" = some (p, c) ∧
         listCost dijMap p = some c ∧ p.head? = some "A" ∧
         p.getLast? = some "C" ∧
         ∀ k, Chain dijMap "A" "C" k → c ≤ k)) :=
  ⟨by decide, by decide, by decide,
   findPath_spec dijMap "A" "C" (by decide) (by decide) (by decide)⟩

end MetaSimPy
